import Mathlib

set_option maxRecDepth 100000
set_option maxHeartbeats 1000000

/-!
# Verification of the graph dataset generator (`src/main.rs`)

Shallow embedding of the Rust program: a `Graph` with an adjacency matrix,
the backtracking Hamiltonian-cycle oracle `get_path`/`get_cycle`, the random
generator `generate`, the rejection loop `generate_with_given_kind`, and the
dataset building loop of `main`'s `Mode::Generation`.

`Vec` indexing panics out of bounds; a panic (or `exit(1)`) is modelled by
`none`.  Randomness is modelled by explicit boolean-valued functions passed
as arguments.
-/

/-- `const NODES_N: usize = 11`. -/
def NODES_N : Nat := 11

/-- `static MAX_EDGES_N: usize = (NODES_N * (NODES_N - 1)) / 2`. -/
def MAX_EDGES_N : Nat := (NODES_N * (NODES_N - 1)) / 2

/-- `static EDGES_THRESHOLD: usize = (MAX_EDGES_N as f32 * 0.5) as usize`.
The float product `55.0 * 0.5 = 27.5` truncates to `27`, which at these values
is exactly natural division by two. -/
def EDGES_THRESHOLD : Nat := MAX_EDGES_N / 2

/-- `const GRAPHS_N: usize = 100000`. -/
def GRAPHS_N : Nat := 100000

/-- The `Graph` struct: node count and adjacency matrix `edges`. -/
structure Graph where
  nodes_n : Nat
  edges : List (List Bool)
deriving DecidableEq

/-- The `GraphKind` enum. -/
inductive GraphKind where
  | Hamiltonian
  | NonHamiltonian
deriving DecidableEq

/-- Reading `m[i][j]` from a `Vec<Vec<bool>>`: `none` models the
out-of-bounds panic. -/
def entry (m : List (List Bool)) (i j : Nat) : Option Bool :=
  match m[i]? with
  | none => none
  | some row => row[j]?

/-- Reading `self.edges[i][j]`. -/
def readEdge (g : Graph) (i j : Nat) : Option Bool :=
  entry g.edges i j

/-- The `for node in 0..NODES_N` loop of `Graph::get_path`: candidates are
tried in increasing order; a missing matrix entry is a panic (`none`) and
aborts; the first non-empty recursive result is returned. -/
def tryNodes (g : Graph) (current : Nat) (recur : Nat → Option (List Nat)) :
    List Nat → Option (List Nat)
  | [] => some []
  | node :: rest =>
    match readEdge g current node with
    | none => none
    | some b =>
      if b then
        match recur node with
        | none => none
        | some p => if p = [] then tryNodes g current recur rest else some p
      else tryNodes g current recur rest

/-- `Graph::get_path`.  The `fuel` argument only serves Lean's termination:
the accumulated `path` always holds pairwise-distinct nodes `< NODES_N`, so
the recursion depth is bounded and the fuel supplied by `get_cycle` is never
exhausted (`get_path_fuel_irrelevant` below). -/
def get_path (g : Graph) : Nat → List Nat → Nat → Option (List Nat)
  | 0, _, _ => none
  | fuel + 1, path, current_node =>
    if current_node = 0 ∧ path.length = NODES_N then some (path ++ [0])
    else if current_node ∈ path then some []
    else
      tryNodes g current_node
        (fun node => get_path g fuel (path ++ [current_node]) node)
        (List.range NODES_N)

/-- `Graph::get_cycle`. -/
def get_cycle (g : Graph) : Option (List Nat) :=
  get_path g (NODES_N + 2) [] 0

/-- `Graph::safety`: `exit(1)` when `nodes_n < 3`, modelled as `none`. -/
def safety (g : Graph) : Option Unit :=
  if g.nodes_n < 3 then none else some ()

/-- `Graph::new`: `vec![vec![false; nodes_n]; nodes_n]`. -/
def Graph.new (nodes_n : Nat) : Graph :=
  { nodes_n := nodes_n
    edges := List.replicate nodes_n (List.replicate nodes_n false) }

/-- One assignment `m[i][j] = value`; `none` models the panic when an index
is out of bounds. -/
def writeEdge (m : List (List Bool)) (i j : Nat) (v : Bool) :
    Option (List (List Bool)) :=
  match m[i]? with
  | none => none
  | some row => if j < row.length then some (m.set i (row.set j v)) else none

/-- `Graph::manage_edge`: `self.edges[i][j] = value; self.edges[j][i] = value`. -/
def manage_edge (g : Graph) (i j : Nat) (v : Bool) : Option Graph :=
  match writeEdge g.edges i j v with
  | none => none
  | some m =>
    match writeEdge m j i v with
    | none => none
    | some m2 => some { g with edges := m2 }

/-- The index pairs visited by the nested loops of `Graph::generate`:
`i in 0..nodes_n`, `j in i+1..nodes_n`, in loop order. -/
def pairList (n : Nat) : List (Nat × Nat) :=
  (List.range n).flatMap
    (fun i => (List.range' (i + 1) (n - (i + 1))).map (fun j => (i, j)))

/-- The loop body of `Graph::generate`:
`self.manage_edge(i, j, random::<bool>())` for the pair `p = (i, j)`. -/
def gen_step (r : Nat → Nat → Bool) (acc : Option Graph) (p : Nat × Nat) :
    Option Graph :=
  match acc with
  | none => none
  | some g2 => manage_edge g2 p.1 p.2 (r p.1 p.2)

/-- `Graph::generate`: assigns every unordered pair `{i, j}`, `i < j`, the
freshly drawn boolean `random::<bool>()`, modelled as `r i j`. -/
def generate (g : Graph) (r : Nat → Nat → Bool) : Option Graph :=
  (pairList g.nodes_n).foldl (gen_step r) (some g)

/-- The row sum `self.edges[i].iter().map(|x| *x as usize).sum()` computed by
the non-Hamiltonian pre-filter; the spec calls it `degree(i)`.  The source
indexes only `i < NODES_N` into `NODES_N`-sized matrices, where the row always
exists. -/
def degree (g : Graph) (i : Nat) : Nat :=
  (g.edges[i]?.getD []).count true

/-- The whole-matrix sum `self.edges.iter().flatten().map(|x| *x as usize)
.sum::<usize>() / 2` computed by the Hamiltonian pre-filter; the spec calls it
`edge_count()`. -/
def edge_count (g : Graph) : Nat :=
  (g.edges.flatten.count true) / 2

/-- The `improvements` pre-filter of `generate_with_given_kind`:
`true` means the candidate is skipped (`continue`). -/
def skip_check (kind : GraphKind) (g : Graph) : Bool :=
  match kind with
  | GraphKind.Hamiltonian => decide (EDGES_THRESHOLD < edge_count g)
  | GraphKind.NonHamiltonian =>
    (List.range NODES_N).any (fun i => decide (degree g i < 2))

/-- `Graph::generate_with_given_kind`.  The unbounded `loop` is modelled with
`fuel` (iterations still allowed; `none` when exhausted); `rs k` is the
randomness drawn by the `k`-th iteration's `generate`. -/
def generate_with_given_kind (kind : GraphKind) (improvements : Bool)
    (rs : Nat → Nat → Nat → Bool) : Nat → Nat → Graph → Option Graph
  | 0, _, _ => none
  | fuel + 1, k, g =>
    match generate g (rs k) with
    | none => none
    | some g2 =>
      if improvements && skip_check kind g2 then
        generate_with_given_kind kind improvements rs fuel (k + 1) g2
      else
        match get_cycle g2 with
        | none => none
        | some p =>
          if (decide (p = [])) != (decide (kind = GraphKind.Hamiltonian)) then
            some g2
          else
            generate_with_given_kind kind improvements rs fuel (k + 1)
              (Graph.new NODES_N)

/-- One iteration of `main`'s `Mode::Generation` inner loop:
`Graph::new(NODES_N)`, `safety()`, `generate_with_given_kind` and a push of
the resulting adjacency matrix onto the class bucket. -/
def class_step (kind : GraphKind) (improvements : Bool)
    (rs : Nat → Nat → Nat → Nat → Bool) (fuel : Nat)
    (acc : Option (List (List (List Bool)))) (i : Nat) :
    Option (List (List (List Bool))) :=
  match acc with
  | none => none
  | some l =>
    match safety (Graph.new NODES_N) with
    | none => none
    | some _ =>
      match generate_with_given_kind kind improvements (rs i) fuel 0
          (Graph.new NODES_N) with
      | none => none
      | some g => some (l ++ [g.edges])

/-- One class bucket of `main`'s `Mode::Generation` loop: `GRAPHS_N`
iterations of `class_step`.  `rs i` is the randomness of iteration `i`;
`fuel` bounds each rejection loop.  `main` invokes it with
`improvements = true`. -/
def run_class (kind : GraphKind) (improvements : Bool)
    (rs : Nat → Nat → Nat → Nat → Bool) (fuel : Nat) :
    Option (List (List (List Bool))) :=
  (List.range GRAPHS_N).foldl (class_step kind improvements rs fuel) (some [])

/-! ## Spec-side predicates -/

/-- A well-formed `n × n` adjacency matrix. -/
def WF (g : Graph) (n : Nat) : Prop :=
  g.nodes_n = n ∧ g.edges.length = n ∧ ∀ row ∈ g.edges, row.length = n

instance (g : Graph) (n : Nat) : Decidable (WF g n) := by
  unfold WF
  infer_instance

/-- A present edge of the matrix. -/
def Adj (g : Graph) (u v : Nat) : Prop :=
  readEdge g u v = some true

/-- The symmetry invariant of the spec: `adjacency[i][j] == adjacency[j][i]`
for every `i, j`. -/
def Symm (g : Graph) : Prop :=
  ∀ i j, readEdge g i j = readEdge g j i

/-- The no-self-loop invariant of the spec: `adjacency[i][i] == false` for
every node `i`. -/
def DiagFalse (g : Graph) : Prop :=
  ∀ i, i < g.nodes_n → readEdge g i i = some false

instance (g : Graph) : Decidable (DiagFalse g) := by
  unfold DiagFalse
  infer_instance

/-- Modelled from the spec: "an ordered sequence of node indices of length
`node_count + 1`, starting and ending at the same node, visiting every other
node exactly once, where every consecutive pair is connected by a present
edge" — stated for the `NODES_N` nodes the oracle actually searches. -/
def IsHamCycle (g : Graph) (l : List Nat) : Prop :=
  l.length = NODES_N + 1 ∧ l.head? = l.getLast? ∧ (l.take NODES_N).Nodup ∧
  (∀ x, x < NODES_N → x ∈ l.take NODES_N) ∧ (∀ x ∈ l, x < NODES_N) ∧
  List.Chain' (Adj g) l

/-- The invariant of the accumulated search path when `get_path` succeeds:
it starts at 0, repeats no node, has one entry per node, and consecutive
entries (including the closing edge back to 0) are present edges. -/
def CyclePath (g : Graph) (q : List Nat) : Prop :=
  q.head? = some 0 ∧ q.Nodup ∧ q.length = NODES_N ∧
  (∀ x, x < NODES_N → x ∈ q) ∧ (∀ x ∈ q, x < NODES_N) ∧
  List.Chain' (Adj g) (q ++ [0])

/-! ## Concrete fixtures -/

/-- The complete graph on `NODES_N = 11` nodes. -/
def complete11 : Graph :=
  { nodes_n := 11
    edges := (List.range 11).map (fun i => (List.range 11).map (fun j => i != j)) }

/-- The complete graph on 12 nodes (one more node than `NODES_N`). -/
def complete12 : Graph :=
  { nodes_n := 12
    edges := (List.range 12).map (fun i => (List.range 12).map (fun j => i != j)) }

/-- The star on 11 nodes: node 0 joined to each of 1..10, no other edges. -/
def star11 : Graph :=
  { nodes_n := 11
    edges := (List.range 11).map
      (fun i => (List.range 11).map (fun j => (i == 0) != (j == 0))) }

/-- Randomness producing the 11-cycle `0-1-…-10-0` (queried at pairs `i < j`). -/
def cycleRand : Nat → Nat → Bool :=
  fun i j => (j == i + 1) || (i == 0 && j == 10)

/-- The graph `generate` builds from `cycleRand`: the plain 11-cycle. -/
def cycleG : Graph :=
  { nodes_n := 11
    edges := (List.range 11).map (fun i => (List.range 11).map (fun j =>
      (j == i + 1) || (i == 0 && j == 10) || (i == j + 1) || (j == 0 && i == 10))) }

/-- Randomness producing a triangle on `{0,1,2}` plus an 8-cycle on `{3,…,10}`
(queried at pairs `i < j`). -/
def triRand : Nat → Nat → Bool :=
  fun i j =>
    ([(0, 1), (1, 2), (0, 2), (3, 4), (4, 5), (5, 6), (6, 7), (7, 8), (8, 9),
      (9, 10), (3, 10)] : List (Nat × Nat)).contains (i, j)

/-- The graph `generate` builds from `triRand`: every node has degree 2 but the
graph is disconnected, hence not Hamiltonian. -/
def triG : Graph :=
  { nodes_n := 11
    edges := (List.range 11).map (fun i => (List.range 11).map (fun j =>
      triRand i j || triRand j i)) }

/-- The complete graph on 4 nodes, the spec's small Hamiltonian fixture. -/
def complete4 : Graph :=
  { nodes_n := 4
    edges := (List.range 4).map (fun i => (List.range 4).map (fun j => i != j)) }

/-- The graph produced by `manage_edge (Graph.new 3) 0 1 true`. -/
def g013 : Graph :=
  { nodes_n := 3
    edges := [[false, true, false], [true, false, false], [false, false, false]] }

/-- The graph produced by the diagonal call `manage_edge (Graph.new 3) 0 0
true`: a self-loop at node 0. -/
def g003 : Graph :=
  { nodes_n := 3
    edges := [[true, false, false], [false, false, false], [false, false, false]] }

/-! ## Basic list lemmas -/

lemma range_NODES_N : List.range NODES_N = [0, 1, 2, 3, 4, 5, 6, 7, 8, 9, 10] := by
  decide

lemma nodup_bounded_length_le {q : List Nat} {n : Nat} (hn : q.Nodup)
    (hb : ∀ x ∈ q, x < n) : q.length ≤ n := by
  have hsub : q.toFinset ⊆ Finset.range n := by
    intro x hx
    simp only [List.mem_toFinset] at hx
    exact Finset.mem_range.mpr (hb x hx)
  have := Finset.card_le_card hsub
  rwa [List.toFinset_card_of_nodup hn, Finset.card_range] at this

lemma nodup_bounded_notmem_length_le {q : List Nat} {n c : Nat} (hn : q.Nodup)
    (hb : ∀ x ∈ q, x < n) (hc : c < n) (hcq : c ∉ q) : q.length + 1 ≤ n := by
  have hn' : (c :: q).Nodup := List.nodup_cons.mpr ⟨hcq, hn⟩
  have hb' : ∀ x ∈ c :: q, x < n := by
    intro x hx
    rcases List.mem_cons.mp hx with h | h
    · exact h ▸ hc
    · exact hb x h
  simpa using nodup_bounded_length_le hn' hb'

lemma nodup_bounded_covers {q : List Nat} {n : Nat} (hn : q.Nodup)
    (hb : ∀ x ∈ q, x < n) (hl : q.length = n) : ∀ x, x < n → x ∈ q := by
  intro x hx
  have hsub : q.toFinset ⊆ Finset.range n := by
    intro y hy
    simp only [List.mem_toFinset] at hy
    exact Finset.mem_range.mpr (hb y hy)
  have hcard : (Finset.range n).card ≤ q.toFinset.card := by
    rw [List.toFinset_card_of_nodup hn, hl, Finset.card_range]
  have := Finset.eq_of_subset_of_card_le hsub hcard
  have hx' : x ∈ q.toFinset := this ▸ Finset.mem_range.mpr hx
  simpa using hx'

lemma two_le_count_true : ∀ (row : List Bool) (x y : Nat), x ≠ y →
    row[x]? = some true → row[y]? = some true → 2 ≤ row.count true := by
  intro row
  induction row with
  | nil => intro x y _ hx _; simp at hx
  | cons b t ih =>
    intro x y hxy hx hy
    match x, y with
    | 0, 0 => exact absurd rfl hxy
    | 0, y + 1 =>
      have hb : b = true := by simpa using hx
      have hmem : true ∈ t := List.getElem?_mem (show t[y]? = some true by simpa using hy)
      have : 1 ≤ t.count true := List.count_pos_iff.mpr hmem
      subst hb
      rw [List.count_cons_self]
      omega
    | x + 1, 0 =>
      have hb : b = true := by simpa using hy
      have hmem : true ∈ t := List.getElem?_mem (show t[x]? = some true by simpa using hx)
      have : 1 ≤ t.count true := List.count_pos_iff.mpr hmem
      subst hb
      rw [List.count_cons_self]
      omega
    | x + 1, y + 1 =>
      have hxy' : x ≠ y := by omega
      have := ih x y hxy' (by simpa using hx) (by simpa using hy)
      simp only [List.count_cons]
      split <;> omega

lemma sum_set_add : ∀ (l : List Nat) (i x y : Nat), l[i]? = some y →
    (l.set i x).sum + y = l.sum + x := by
  intro l
  induction l with
  | nil => intro i x y h; simp at h
  | cons a t ih =>
    intro i x y h
    match i with
    | 0 =>
      have hy : a = y := by simpa using h
      simp [List.set, ← hy]
      omega
    | i + 1 =>
      have h' : t[i]? = some y := by simpa using h
      have := ih i x y h'
      simp only [List.set, List.sum_cons]
      omega

/-! ## Matrix entry lemmas -/

lemma entry_of_rows {m : List (List Bool)} {i : Nat} {row : List Bool}
    (h : m[i]? = some row) (j : Nat) : entry m i j = row[j]? := by
  simp [entry, h]

lemma entry_none_left {m : List (List Bool)} {i : Nat}
    (h : m.length ≤ i) (j : Nat) : entry m i j = none := by
  simp [entry, List.getElem?_eq_none h]

lemma WF_rows {g : Graph} {n : Nat} (h : WF g n) {a : Nat} (ha : a < n) :
    ∃ row, g.edges[a]? = some row ∧ row.length = n := by
  obtain ⟨-, hlen, hrows⟩ := h
  have ha' : a < g.edges.length := by omega
  exact ⟨g.edges[a], List.getElem?_eq_getElem ha', hrows _ (List.getElem_mem ha')⟩

lemma readEdge_isSome {g : Graph} {n : Nat} (h : WF g n) {a b : Nat}
    (ha : a < n) (hb : b < n) : ∃ v, readEdge g a b = some v := by
  obtain ⟨row, hrow, hrlen⟩ := WF_rows h ha
  have hb' : b < row.length := by omega
  exact ⟨row[b], by simp [readEdge, entry, hrow, List.getElem?_eq_getElem hb']⟩

lemma readEdge_none_of_col {g : Graph} {n : Nat} (h : WF g n) {a b : Nat}
    (ha : a < n) (hb : n ≤ b) : readEdge g a b = none := by
  obtain ⟨row, hrow, hrlen⟩ := WF_rows h ha
  simp [readEdge, entry, hrow, List.getElem?_eq_none (hrlen ▸ hb)]

lemma readEdge_none_of_row {g : Graph} {n : Nat} (h : WF g n) {a : Nat}
    (ha : n ≤ a) (b : Nat) : readEdge g a b = none := by
  have hlen : g.edges.length ≤ a := by
    obtain ⟨-, hl, -⟩ := h
    omega
  simp [readEdge, entry, List.getElem?_eq_none hlen]

lemma WF_new (n : Nat) : WF (Graph.new n) n := by
  refine ⟨rfl, by simp [Graph.new], ?_⟩
  intro row hrow
  have := List.eq_of_mem_replicate hrow
  simp [this]

lemma readEdge_new (n i j : Nat) :
    readEdge (Graph.new n) i j =
      if i < n ∧ j < n then some false else none := by
  by_cases hi : i < n
  · by_cases hj : j < n
    · simp [readEdge, entry, Graph.new, List.getElem?_replicate, hi, hj]
    · simp [readEdge, entry, Graph.new, List.getElem?_replicate, hi, hj]
  · simp [readEdge, entry, Graph.new, List.getElem?_replicate, hi]

lemma DiagFalse_new (n : Nat) : DiagFalse (Graph.new n) := by
  intro i hi
  have hi' : i < n := hi
  simp [readEdge_new, hi']

/-! ## writeEdge / manage_edge lemmas -/

lemma writeEdge_eq_some {m : List (List Bool)} {i j : Nat} {row : List Bool}
    (hrow : m[i]? = some row) (hj : j < row.length) (v : Bool) :
    writeEdge m i j v = some (m.set i (row.set j v)) := by
  simp [writeEdge, hrow, hj]

lemma writeEdge_some_spec {m m' : List (List Bool)} {i j : Nat} {v : Bool}
    (h : writeEdge m i j v = some m') :
    m'.length = m.length ∧
    (∀ a : Nat, (m'[a]?).map (fun row : List Bool => row.length) = (m[a]?).map (fun row : List Bool => row.length)) ∧
    (∀ a b, entry m' a b = if a = i ∧ b = j then some v else entry m a b) := by
  cases hrow : m[i]? with
  | none => simp [writeEdge, hrow] at h
  | some row =>
    by_cases hj : j < row.length
    · rw [writeEdge_eq_some hrow hj v] at h
      have hm' : m' = m.set i (row.set j v) := by
        injection h with h; exact h.symm
      obtain ⟨hi, -⟩ := List.getElem?_eq_some.mp hrow
      subst hm'
      refine ⟨List.length_set .., ?_, ?_⟩
      · intro a
        by_cases ha : a = i
        · subst ha
          rw [@List.getElem?_set_self _ m a (row.set j v) (by omega), hrow]
          simp
        · rw [@List.getElem?_set_ne _ m i a (fun hc => ha hc.symm) (row.set j v)]
      · intro a b
        by_cases ha : a = i
        · subst ha
          have hrow' : (m.set a (row.set j v))[a]? = some (row.set j v) :=
            @List.getElem?_set_self _ m a (row.set j v) (by omega)
          rw [entry_of_rows hrow', entry_of_rows hrow]
          by_cases hb : b = j
          · subst hb
            rw [@List.getElem?_set_self _ row b v hj]
            simp
          · rw [@List.getElem?_set_ne _ row j b (fun hc => hb hc.symm) v]
            simp [hb]
        · have hrows : (m.set i (row.set j v))[a]? = m[a]? :=
            @List.getElem?_set_ne _ m i a (fun hc => ha hc.symm) (row.set j v)
          simp only [entry, hrows]
          rw [if_neg (fun hc => ha hc.1)]
    · simp [writeEdge, hrow, hj] at h

lemma manage_edge_some_spec {g g' : Graph} {i j : Nat} {v : Bool}
    (h : manage_edge g i j v = some g') :
    g'.nodes_n = g.nodes_n ∧ g'.edges.length = g.edges.length ∧
    (∀ a : Nat, (g'.edges[a]?).map (fun row : List Bool => row.length) = (g.edges[a]?).map (fun row : List Bool => row.length)) ∧
    (∀ a b, readEdge g' a b =
      if a = j ∧ b = i then some v
      else if a = i ∧ b = j then some v else readEdge g a b) := by
  cases h1 : writeEdge g.edges i j v with
  | none => simp [manage_edge, h1] at h
  | some m =>
    cases h2 : writeEdge m j i v with
    | none => simp [manage_edge, h1, h2] at h
    | some m2 =>
      have hg' : g' = { g with edges := m2 } := by
        simp only [manage_edge, h1, h2, Option.some.injEq] at h
        exact h.symm
      obtain ⟨hl1, hs1, he1⟩ := writeEdge_some_spec h1
      obtain ⟨hl2, hs2, he2⟩ := writeEdge_some_spec h2
      subst hg'
      refine ⟨rfl, by simp [hl1, hl2], ?_, ?_⟩
      · intro a
        simp only
        rw [hs2 a, hs1 a]
      · intro a b
        simp only [readEdge]
        rw [he2 a b, he1 a b]

lemma manage_edge_succeeds {g : Graph} {n i j : Nat} (hwf : WF g n)
    (hi : i < n) (hj : j < n) (v : Bool) :
    ∃ g', manage_edge g i j v = some g' := by
  obtain ⟨rowi, hrowi, hleni⟩ := WF_rows hwf hi
  have h1 : writeEdge g.edges i j v = some (g.edges.set i (rowi.set j v)) :=
    writeEdge_eq_some hrowi (by omega) v
  obtain ⟨-, hs1, -⟩ := writeEdge_some_spec h1
  obtain ⟨rowj, hrowj, hlenj⟩ := WF_rows hwf hj
  have hmapj := hs1 j
  rw [hrowj] at hmapj
  cases hrowj' : (g.edges.set i (rowi.set j v))[j]? with
  | none => rw [hrowj'] at hmapj; exact absurd hmapj (by simp)
  | some rowj' =>
    rw [hrowj'] at hmapj
    have hlenj' : rowj'.length = n := by
      have : rowj'.length = rowj.length := by simpa using hmapj
      omega
    have h2 := writeEdge_eq_some hrowj' (show i < rowj'.length by omega) v
    exact ⟨{ g with edges := ((g.edges.set i (rowi.set j v)).set j (rowj'.set i v)) },
      by simp [manage_edge, h1, h2]⟩

lemma WF_of_manage_edge {g g' : Graph} {n i j : Nat} {v : Bool}
    (hwf : WF g n) (h : manage_edge g i j v = some g') : WF g' n := by
  obtain ⟨hn, hl, hs, -⟩ := manage_edge_some_spec h
  obtain ⟨hn0, hl0, hrows0⟩ := hwf
  refine ⟨by omega, by omega, ?_⟩
  intro row hrow
  obtain ⟨a, ha, hget⟩ := List.mem_iff_getElem.mp hrow
  have hget? : g'.edges[a]? = some row := hget ▸ List.getElem?_eq_getElem ha
  have hmap := hs a
  rw [hget?] at hmap
  have ha' : a < g.edges.length := by
    rw [← hl]; omega
  rw [List.getElem?_eq_getElem ha'] at hmap
  have : row.length = g.edges[a].length := by simpa using hmap
  rw [this]
  exact hrows0 _ (List.getElem_mem ha')

/-! ## generate characterization -/

lemma gen_foldl_acc_none (r : Nat → Nat → Bool) :
    ∀ P : List (Nat × Nat), P.foldl (gen_step r) none = none := by
  intro P
  induction P with
  | nil => rfl
  | cons hd T ih => rw [List.foldl_cons]; exact ih

lemma pairList_mem {n : Nat} (p : Nat × Nat) :
    p ∈ pairList n ↔ p.1 < p.2 ∧ p.2 < n := by
  obtain ⟨a, b⟩ := p
  simp only [pairList, List.mem_flatMap, List.mem_map, List.mem_range,
    List.mem_range'_1, Prod.mk.injEq]
  constructor
  · rintro ⟨i, hi, j, ⟨hj1, hj2⟩, rfl, rfl⟩
    omega
  · rintro ⟨hab, hbn⟩
    exact ⟨a, by omega, b, ⟨by omega, by omega⟩, rfl, rfl⟩

lemma gen_foldl_spec {n : Nat} (r : Nat → Nat → Bool) :
    ∀ (P : List (Nat × Nat)) (g : Graph), WF g n →
    (∀ p ∈ P, p.1 < p.2 ∧ p.2 < n) →
    ∃ g', P.foldl (gen_step r) (some g) = some g' ∧ WF g' n ∧
      g'.nodes_n = g.nodes_n ∧
      (∀ a b, readEdge g' a b =
        if (a, b) ∈ P then some (r a b)
        else if (b, a) ∈ P then some (r b a) else readEdge g a b) := by
  intro P
  induction P with
  | nil =>
    intro g hwf _
    exact ⟨g, rfl, hwf, rfl, by simp⟩
  | cons hd T ih =>
    intro g hwf hb
    obtain ⟨i, j⟩ := hd
    have hij : i < j := (hb (i, j) (List.mem_cons_self _ _)).1
    have hjn : j < n := (hb (i, j) (List.mem_cons_self _ _)).2
    obtain ⟨g1, hg1⟩ := manage_edge_succeeds hwf (show i < n by omega) hjn (r i j)
    have hwf1 : WF g1 n := WF_of_manage_edge hwf hg1
    have hent1 := (manage_edge_some_spec hg1).2.2.2
    have hTnorm : ∀ p ∈ T, p.1 < p.2 ∧ p.2 < n :=
      fun p hp => hb p (List.mem_cons_of_mem _ hp)
    obtain ⟨g', hfold, hwf', hnn, hent⟩ := ih g1 hwf1 hTnorm
    refine ⟨g', ?_, hwf', by rw [hnn, (manage_edge_some_spec hg1).1], ?_⟩
    · rw [List.foldl_cons]
      simpa [gen_step, hg1] using hfold
    · intro a b
      rw [hent a b, hent1 a b]
      by_cases h1 : (a, b) ∈ T
      · rw [if_pos h1, if_pos (List.mem_cons_of_mem _ h1)]
      · rw [if_neg h1]
        by_cases h2 : (b, a) ∈ T
        · have hne : ¬((a, b) = (i, j) ∨ (a, b) ∈ T) := by
            rintro (hc | hc)
            · have hba : b < a := (hTnorm _ h2).1
              rw [Prod.mk.injEq] at hc
              omega
            · exact h1 hc
          rw [if_pos h2, if_neg (by rw [List.mem_cons]; exact hne),
            if_pos (List.mem_cons_of_mem _ h2)]
        · rw [if_neg h2]
          by_cases hab : a = i ∧ b = j
          · obtain ⟨ha, hb'⟩ := hab
            have hne : ¬(a = j ∧ b = i) := by
              rintro ⟨h3, -⟩
              omega
            have hmem : (a, b) ∈ (i, j) :: T := by
              rw [List.mem_cons, Prod.mk.injEq]
              exact Or.inl ⟨ha, hb'⟩
            rw [if_neg hne, if_pos ⟨ha, hb'⟩, if_pos hmem, ha, hb']
          · by_cases hba : a = j ∧ b = i
            · obtain ⟨ha, hb'⟩ := hba
              have hm1 : ¬((a, b) = (i, j) ∨ (a, b) ∈ T) := by
                rintro (hc | hc)
                · rw [Prod.mk.injEq] at hc
                  omega
                · exact h1 hc
              have hmem : (b, a) ∈ (i, j) :: T := by
                rw [List.mem_cons, Prod.mk.injEq]
                exact Or.inl ⟨hb', ha⟩
              rw [if_pos ⟨ha, hb'⟩, if_neg (by rw [List.mem_cons]; exact hm1),
                if_pos hmem, ha, hb']
            · have hm1 : ¬((a, b) = (i, j) ∨ (a, b) ∈ T) := by
                rintro (hc | hc)
                · rw [Prod.mk.injEq] at hc
                  exact hab hc
                · exact h1 hc
              have hm2 : ¬((b, a) = (i, j) ∨ (b, a) ∈ T) := by
                rintro (hc | hc)
                · rw [Prod.mk.injEq] at hc
                  exact hba ⟨hc.2, hc.1⟩
                · exact h2 hc
              rw [if_neg hab, if_neg hba,
                if_neg (by rw [List.mem_cons]; exact hm1),
                if_neg (by rw [List.mem_cons]; exact hm2)]

lemma generate_spec {g : Graph} {n : Nat} (r : Nat → Nat → Bool)
    (hwf : WF g n) :
    ∃ g', generate g r = some g' ∧ WF g' n ∧ g'.nodes_n = g.nodes_n ∧
      (∀ a b, readEdge g' a b =
        if a < b ∧ b < n then some (r a b)
        else if b < a ∧ a < n then some (r b a) else readEdge g a b) := by
  obtain ⟨g', h1, h2, h3, h4⟩ := gen_foldl_spec r (pairList n) g hwf
    (fun p hp => (pairList_mem p).mp hp)
  refine ⟨g', ?_, h2, h3, ?_⟩
  · unfold generate
    rw [hwf.1]
    exact h1
  · intro a b
    rw [h4 a b]
    by_cases hc1 : a < b ∧ b < n
    · rw [if_pos ((pairList_mem (a, b)).mpr hc1), if_pos hc1]
    · rw [if_neg (fun hc => hc1 ((pairList_mem (a, b)).mp hc)), if_neg hc1]
      by_cases hc2 : b < a ∧ a < n
      · rw [if_pos ((pairList_mem (b, a)).mpr hc2), if_pos hc2]
      · rw [if_neg (fun hc => hc2 ((pairList_mem (b, a)).mp hc)), if_neg hc2]

/-! ## Edge-count bookkeeping of generate -/

lemma count_set_of_false {row : List Bool} {j : Nat} (hj : row[j]? = some false)
    (v : Bool) :
    (row.set j v).count true = row.count true + (if v then 1 else 0) := by
  obtain ⟨hlt, hval⟩ := List.getElem?_eq_some.mp hj
  have hcs := List.count_set v true row j hlt
  rw [hcs, hval]
  cases v <;> simp

lemma flatten_count_set {m : List (List Bool)} {i : Nat} {row : List Bool}
    (hrow : m[i]? = some row) (row' : List Bool) :
    (m.set i row').flatten.count true + row.count true =
      m.flatten.count true + row'.count true := by
  rw [List.count_flatten, List.count_flatten, List.map_set]
  have hmi : (m.map (List.count true))[i]? = some (row.count true) := by
    rw [List.getElem?_map, hrow]
    rfl
  exact sum_set_add (m.map (List.count true)) i (List.count true row')
    (row.count true) hmi

lemma writeEdge_count {m m' : List (List Bool)} {i j : Nat} {v : Bool}
    (hold : entry m i j = some false) (h : writeEdge m i j v = some m') :
    m'.flatten.count true = m.flatten.count true + (if v then 1 else 0) := by
  cases hrow : m[i]? with
  | none => simp [writeEdge, hrow] at h
  | some row =>
    have hold' : row[j]? = some false := by
      rw [entry_of_rows hrow] at hold
      exact hold
    have hj : j < row.length := (List.getElem?_eq_some.mp hold').1
    rw [writeEdge_eq_some hrow hj v] at h
    injection h with h
    subst h
    have h1 := flatten_count_set hrow (row.set j v)
    have h2 := count_set_of_false hold' v
    omega

lemma manage_edge_count {g g' : Graph} {i j : Nat} {v : Bool} (hij : i ≠ j)
    (h1 : readEdge g i j = some false) (h2 : readEdge g j i = some false)
    (h : manage_edge g i j v = some g') :
    g'.edges.flatten.count true =
      g.edges.flatten.count true + (if v then 2 else 0) := by
  cases hw1 : writeEdge g.edges i j v with
  | none => simp [manage_edge, hw1] at h
  | some m =>
    cases hw2 : writeEdge m j i v with
    | none => simp [manage_edge, hw1, hw2] at h
    | some m2 =>
      have hg' : g'.edges = m2 := by
        simp only [manage_edge, hw1, hw2, Option.some.injEq] at h
        rw [← h]
      have hc1 := writeEdge_count h1 hw1
      have hmid : entry m j i = some false := by
        rw [(writeEdge_some_spec hw1).2.2 j i,
          if_neg (fun hc => hij hc.1.symm)]
        exact h2
      have hc2 := writeEdge_count hmid hw2
      have hsplit : (if v then 2 else 0) = (if v then 1 else 0) + (if v then 1 else 0) := by
        cases v <;> rfl
      rw [hg', hsplit]
      omega

lemma nodup_flatMap_tagged (inner : Nat → List Nat) :
    ∀ l : List Nat, l.Nodup → (∀ i ∈ l, (inner i).Nodup) →
    (l.flatMap (fun i => (inner i).map (fun j => (i, j)))).Nodup := by
  intro l
  induction l with
  | nil => intro _ _; simp
  | cons x t ih =>
    intro hnd hinner
    rw [List.flatMap_cons, List.nodup_append]
    obtain ⟨hx, ht⟩ := List.nodup_cons.mp hnd
    refine ⟨?_, ih ht (fun i hi => hinner i (List.mem_cons_of_mem _ hi)), ?_⟩
    · exact (hinner x (List.mem_cons_self _ _)).map
        (fun a b h => congrArg Prod.snd h)
    · intro p hp1 hp2
      obtain ⟨j1, hj1, hje⟩ := List.mem_map.mp hp1
      obtain ⟨i2, hi2, hp2'⟩ := List.mem_flatMap.mp hp2
      obtain ⟨j2, hj2, heq⟩ := List.mem_map.mp hp2'
      have hx2 : i2 = x := by
        have := congrArg Prod.fst heq
        rw [← hje] at this
        simpa using this
      exact hx (hx2 ▸ hi2)

lemma pairList_nodup (n : Nat) : (pairList n).Nodup := by
  have := nodup_flatMap_tagged (fun i => List.range' (i + 1) (n - (i + 1)))
    (List.range n) (List.nodup_range n)
    (fun i _ => List.nodup_range' _ _ 1 (by omega))
  exact this

lemma gen_foldl_count {n : Nat} (r : Nat → Nat → Bool) :
    ∀ (P : List (Nat × Nat)) (g : Graph), WF g n →
    (∀ p ∈ P, p.1 < p.2 ∧ p.2 < n) → P.Nodup →
    (∀ p ∈ P, readEdge g p.1 p.2 = some false ∧
      readEdge g p.2 p.1 = some false) →
    ∀ g', P.foldl (gen_step r) (some g) = some g' →
    g'.edges.flatten.count true =
      g.edges.flatten.count true +
        2 * (P.filter (fun p => r p.1 p.2)).length := by
  intro P
  induction P with
  | nil =>
    intro g hwf _ _ _ g' hfold
    simp only [List.foldl_nil, Option.some.injEq] at hfold
    subst hfold
    simp
  | cons hd T ih =>
    intro g hwf hb hnd hfalse g' hfold
    obtain ⟨i, j⟩ := hd
    have hij : i < j := (hb (i, j) (List.mem_cons_self _ _)).1
    have hjn : j < n := (hb (i, j) (List.mem_cons_self _ _)).2
    rw [List.foldl_cons] at hfold
    cases hg1 : manage_edge g i j (r i j) with
    | none =>
      rw [show gen_step r (some g) (i, j) = none by simp [gen_step, hg1]]
        at hfold
      rw [gen_foldl_acc_none] at hfold
      exact absurd hfold (by simp)
    | some g1 =>
      rw [show gen_step r (some g) (i, j) = some g1 by simp [gen_step, hg1]]
        at hfold
      have hfg := hfalse (i, j) (List.mem_cons_self _ _)
      have hcnt : g1.edges.flatten.count true =
          g.edges.flatten.count true + (if r i j then 2 else 0) :=
        manage_edge_count (by omega) hfg.1 hfg.2 hg1
      have hent1 := (manage_edge_some_spec hg1).2.2.2
      have hwf1 : WF g1 n := WF_of_manage_edge hwf hg1
      have hhd_not : (i, j) ∉ T := (List.nodup_cons.mp hnd).1
      have hTfalse : ∀ p ∈ T, readEdge g1 p.1 p.2 = some false ∧
          readEdge g1 p.2 p.1 = some false := by
        intro p hp
        have hpn := hb p (List.mem_cons_of_mem _ hp)
        have hpf := hfalse p (List.mem_cons_of_mem _ hp)
        have hpT : (p.1, p.2) = p := rfl
        constructor
        · have hc1 : ¬(p.1 = j ∧ p.2 = i) := by
            rintro ⟨h3, h4⟩
            omega
          have hc2 : ¬(p.1 = i ∧ p.2 = j) := by
            rintro ⟨h3, h4⟩
            refine hhd_not ?_
            rw [← h3, ← h4, hpT]
            exact hp
          rw [hent1 p.1 p.2, if_neg hc1, if_neg hc2]
          exact hpf.1
        · have hc1 : ¬(p.2 = j ∧ p.1 = i) := by
            rintro ⟨h3, h4⟩
            refine hhd_not ?_
            rw [← h4, ← h3, hpT]
            exact hp
          have hc2 : ¬(p.2 = i ∧ p.1 = j) := by
            rintro ⟨h3, h4⟩
            omega
          rw [hent1 p.2 p.1, if_neg hc1, if_neg hc2]
          exact hpf.2
      have hrec := ih g1 hwf1 (fun p hp => hb p (List.mem_cons_of_mem _ hp))
        (List.nodup_cons.mp hnd).2 hTfalse g' hfold
      rw [hrec, hcnt, List.filter_cons]
      cases hr : r i j <;> simp [hr] <;> omega

lemma generate_new_count {n : Nat} {r : Nat → Nat → Bool} {g' : Graph}
    (h : generate (Graph.new n) r = some g') :
    g'.edges.flatten.count true =
      2 * ((pairList n).filter (fun p => r p.1 p.2)).length := by
  have hwf := WF_new n
  have hfold : (pairList n).foldl (gen_step r) (some (Graph.new n)) = some g' := h
  have hfalse : ∀ p ∈ pairList n, readEdge (Graph.new n) p.1 p.2 = some false ∧
      readEdge (Graph.new n) p.2 p.1 = some false := by
    intro p hp
    obtain ⟨h1, h2⟩ := (pairList_mem p).mp hp
    constructor
    · rw [readEdge_new, if_pos (by omega : p.1 < n ∧ p.2 < n)]
    · rw [readEdge_new, if_pos (by omega : p.2 < n ∧ p.1 < n)]
  have hz : (Graph.new n).edges.flatten.count true = 0 := by
    rw [List.count_eq_zero]
    intro hmem
    obtain ⟨row, hrow, hin⟩ := List.mem_flatten.mp hmem
    rw [List.eq_of_mem_replicate hrow] at hin
    exact absurd (List.eq_of_mem_replicate hin) (by simp)
  have := gen_foldl_count r (pairList n) (Graph.new n) hwf
    (fun p hp => (pairList_mem p).mp hp) (pairList_nodup n) hfalse g' hfold
  omega

/-! ## Oracle lemmas: soundness -/

lemma get_path_succ (g : Graph) (fuel : Nat) (path : List Nat)
    (current : Nat) :
    get_path g (fuel + 1) path current =
      if current = 0 ∧ path.length = NODES_N then some (path ++ [0])
      else if current ∈ path then some []
      else
        tryNodes g current
          (fun node => get_path g fuel (path ++ [current]) node)
          (List.range NODES_N) := by
  simp only [get_path]

lemma tryNodes_sound {g : Graph} {current : Nat}
    {recur : Nat → Option (List Nat)} (C : List Nat → Prop) :
    ∀ nodes : List Nat,
    (∀ node ∈ nodes, readEdge g current node = some true →
      ∀ q, recur node = some q → q ≠ [] → C q) →
    ∀ p, tryNodes g current recur nodes = some p → p ≠ [] → C p := by
  intro nodes
  induction nodes with
  | nil =>
    intro _ p hp hne
    simp only [tryNodes, Option.some.injEq] at hp
    exact absurd hp.symm hne
  | cons node rest ih =>
    intro h p hp hne
    cases he : readEdge g current node with
    | none => simp [tryNodes, he] at hp
    | some b =>
      cases b with
      | false =>
        rw [show tryNodes g current recur (node :: rest)
            = tryNodes g current recur rest from by simp [tryNodes, he]] at hp
        exact ih (fun n hn => h n (List.mem_cons_of_mem _ hn)) p hp hne
      | true =>
        cases hr : recur node with
        | none => simp [tryNodes, he, hr] at hp
        | some q =>
          by_cases hq : q = []
          · rw [show tryNodes g current recur (node :: rest)
                = tryNodes g current recur rest from by
              simp [tryNodes, he, hr, hq]] at hp
            exact ih (fun n hn => h n (List.mem_cons_of_mem _ hn)) p hp hne
          · have hqp : some q = some p := by
              rw [← hp]
              simp [tryNodes, he, hr, hq]
            have hqp' : q = p := by injection hqp
            subst hqp'
            exact h node (List.mem_cons_self _ _) he q hr hq

lemma get_path_sound {g : Graph} :
    ∀ fuel path current p,
    path.Nodup → (∀ x ∈ path, x < NODES_N) → current < NODES_N →
    (path = [] → current = 0) →
    (path ≠ [] → path.head? = some 0 ∧ List.Chain' (Adj g) path ∧
      ∀ z ∈ path.getLast?, Adj g z current) →
    get_path g fuel path current = some p → p ≠ [] →
    ∃ q, p = q ++ [0] ∧ CyclePath g q := by
  intro fuel
  induction fuel with
  | zero =>
    intro path current p _ _ _ _ _ h _
    exact absurd h (by simp [get_path])
  | succ fuel ih =>
    intro path current p hnd hbnd hcur h0 hinv hp hne
    simp only [get_path] at hp
    by_cases hguard : current = 0 ∧ path.length = NODES_N
    · rw [if_pos hguard] at hp
      obtain ⟨hc0, hlen⟩ := hguard
      have hpne : path ≠ [] := by
        intro hcon
        rw [hcon] at hlen
        simp [NODES_N] at hlen
      obtain ⟨hhead, hchain, hlast⟩ := hinv hpne
      have hpq : p = path ++ [0] := by
        injection hp with h2
        exact h2.symm
      refine ⟨path, hpq, hhead, hnd, hlen,
        nodup_bounded_covers hnd hbnd hlen, hbnd, ?_⟩
      rw [List.chain'_append]
      refine ⟨hchain, List.chain'_singleton 0, ?_⟩
      intro x hx y hy
      have hy' : 0 = y := by simpa using hy
      subst hy'
      exact hc0 ▸ hlast x hx
    · rw [if_neg hguard] at hp
      by_cases hmem : current ∈ path
      · rw [if_pos hmem] at hp
        have hpe : ([] : List Nat) = p := by injection hp
        exact absurd hpe.symm hne
      · rw [if_neg hmem] at hp
        refine tryNodes_sound
          (fun p => ∃ q, p = q ++ [0] ∧ CyclePath g q)
          (List.range NODES_N) ?_ p hp hne
        intro node hnode hedge q hrec hqne
        have hnode11 : node < NODES_N := List.mem_range.mp hnode
        refine ih (path ++ [current]) node q ?_ ?_ hnode11 ?_ ?_ hrec hqne
        · rw [List.nodup_append]
          exact ⟨hnd, List.nodup_singleton _, by simpa using hmem⟩
        · intro x hx
          rcases List.mem_append.mp hx with h | h
          · exact hbnd x h
          · have hxc : x = current := by simpa using h
            exact hxc ▸ hcur
        · intro hcon
          exact absurd hcon (by simp)
        · intro _
          refine ⟨?_, ?_, ?_⟩
          · cases path with
            | nil => simp [h0 rfl]
            | cons a t =>
              obtain ⟨hh, -, -⟩ := hinv (by simp)
              rw [List.head?_append, hh]
              rfl
          · cases path with
            | nil => simp
            | cons a t =>
              obtain ⟨-, hch, hl⟩ := hinv (by simp)
              rw [List.chain'_append]
              refine ⟨hch, List.chain'_singleton _, ?_⟩
              intro x hx y hy
              have hy' : current = y := by simpa using hy
              subst hy'
              exact hl x hx
          · intro z hz
            rw [List.getLast?_concat] at hz
            have hz' : current = z := by simpa using hz
            subst hz'
            exact hedge

/-! ## Oracle lemmas: totality and fuel adequacy on NODES_N-sized graphs -/

lemma path_ext_nodup {path : List Nat} {current : Nat} (hnd : path.Nodup)
    (hmem : current ∉ path) : (path ++ [current]).Nodup := by
  rw [List.nodup_append]
  exact ⟨hnd, List.nodup_singleton _, by simpa using hmem⟩

lemma path_ext_bounded {path : List Nat} {current : Nat}
    (hbnd : ∀ x ∈ path, x < NODES_N) (hcur : current < NODES_N) :
    ∀ x ∈ path ++ [current], x < NODES_N := by
  intro x hx
  rcases List.mem_append.mp hx with h | h
  · exact hbnd x h
  · have hxc : x = current := by simpa using h
    exact hxc ▸ hcur

lemma tryNodes_isSome {g : Graph} {current : Nat}
    {recur : Nat → Option (List Nat)} :
    ∀ nodes : List Nat,
    (∀ node ∈ nodes, (readEdge g current node).isSome) →
    (∀ node ∈ nodes, (recur node).isSome) →
    (tryNodes g current recur nodes).isSome := by
  intro nodes
  induction nodes with
  | nil => intro _ _; simp [tryNodes]
  | cons node rest ih =>
    intro h1 h2
    obtain ⟨b, he⟩ :=
      Option.isSome_iff_exists.mp (h1 node (List.mem_cons_self _ _))
    obtain ⟨q, hr⟩ :=
      Option.isSome_iff_exists.mp (h2 node (List.mem_cons_self _ _))
    have ihr := ih (fun n hn => h1 n (List.mem_cons_of_mem _ hn))
      (fun n hn => h2 n (List.mem_cons_of_mem _ hn))
    cases b with
    | false =>
      rw [show tryNodes g current recur (node :: rest)
          = tryNodes g current recur rest from by simp [tryNodes, he]]
      exact ihr
    | true =>
      by_cases hq : q = []
      · rw [show tryNodes g current recur (node :: rest)
            = tryNodes g current recur rest from by simp [tryNodes, he, hr, hq]]
        exact ihr
      · rw [show tryNodes g current recur (node :: rest) = some q from by
          simp [tryNodes, he, hr, hq]]
        simp

lemma get_path_isSome {g : Graph} (hwf : WF g NODES_N) :
    ∀ fuel path current,
    path.Nodup → (∀ x ∈ path, x < NODES_N) → current < NODES_N →
    NODES_N + 1 - path.length < fuel →
    (get_path g fuel path current).isSome := by
  intro fuel
  induction fuel with
  | zero =>
    intro path current _ _ _ hfuel
    exact absurd hfuel (Nat.not_lt_zero _)
  | succ fuel ih =>
    intro path current hnd hbnd hcur hfuel
    simp only [get_path]
    by_cases hguard : current = 0 ∧ path.length = NODES_N
    · rw [if_pos hguard]; simp
    · rw [if_neg hguard]
      by_cases hmem : current ∈ path
      · rw [if_pos hmem]; simp
      · rw [if_neg hmem]
        have hlen : path.length + 1 ≤ NODES_N :=
          nodup_bounded_notmem_length_le hnd hbnd hcur hmem
        apply tryNodes_isSome
        · intro node hnode
          obtain ⟨v, hv⟩ := readEdge_isSome hwf hcur (List.mem_range.mp hnode)
          simp [hv]
        · intro node hnode
          apply ih _ node (path_ext_nodup hnd hmem) (path_ext_bounded hbnd hcur)
            (List.mem_range.mp hnode)
          simp only [List.length_append, List.length_cons, List.length_nil]
          omega

lemma tryNodes_congr {g : Graph} {current : Nat}
    {recur1 recur2 : Nat → Option (List Nat)} :
    ∀ nodes : List Nat, (∀ node ∈ nodes, recur1 node = recur2 node) →
    tryNodes g current recur1 nodes = tryNodes g current recur2 nodes := by
  intro nodes
  induction nodes with
  | nil => intro _; rfl
  | cons node rest ih =>
    intro h
    have hh := h node (List.mem_cons_self _ _)
    have ht := ih (fun n hn => h n (List.mem_cons_of_mem _ hn))
    simp only [tryNodes, hh, ht]

/-- The fuel counter of the embedding is semantically inert: any two fuels
above the remaining recursion depth give the same result, so `get_cycle`'s
choice `NODES_N + 2` models the unbounded recursion of the source exactly. -/
lemma get_path_fuel_irrelevant {g : Graph} :
    ∀ f1 f2 path current,
    path.Nodup → (∀ x ∈ path, x < NODES_N) → current < NODES_N →
    NODES_N + 1 - path.length < f1 → NODES_N + 1 - path.length < f2 →
    get_path g f1 path current = get_path g f2 path current := by
  intro f1
  induction f1 with
  | zero =>
    intro f2 path current _ _ _ h1 _
    exact absurd h1 (Nat.not_lt_zero _)
  | succ f1 ih =>
    intro f2 path current hnd hbnd hcur h1 h2
    cases f2 with
    | zero => exact absurd h2 (Nat.not_lt_zero _)
    | succ f2 =>
      simp only [get_path]
      by_cases hguard : current = 0 ∧ path.length = NODES_N
      · rw [if_pos hguard, if_pos hguard]
      · rw [if_neg hguard, if_neg hguard]
        by_cases hmem : current ∈ path
        · rw [if_pos hmem, if_pos hmem]
        · rw [if_neg hmem, if_neg hmem]
          have hlen : path.length + 1 ≤ NODES_N :=
            nodup_bounded_notmem_length_le hnd hbnd hcur hmem
          apply tryNodes_congr
          intro node hnode
          apply ih _ _ node (path_ext_nodup hnd hmem)
            (path_ext_bounded hbnd hcur) (List.mem_range.mp hnode) <;>
            simp only [List.length_append, List.length_cons, List.length_nil] <;>
            omega

/-! ## Oracle lemmas: completeness -/

lemma tryNodes_finds {g : Graph} {current v : Nat}
    {recur : Nat → Option (List Nat)} :
    ∀ nodes : List Nat,
    (∀ node ∈ nodes, (readEdge g current node).isSome) →
    (∀ node ∈ nodes, (recur node).isSome) →
    v ∈ nodes → readEdge g current v = some true →
    (∀ q, recur v = some q → q ≠ []) →
    ∃ p, tryNodes g current recur nodes = some p ∧ p ≠ [] := by
  intro nodes
  induction nodes with
  | nil =>
    intro _ _ hv _ _
    exact absurd hv (by simp)
  | cons node rest ih =>
    intro h1 h2 hv hev hq
    obtain ⟨b, he⟩ :=
      Option.isSome_iff_exists.mp (h1 node (List.mem_cons_self _ _))
    obtain ⟨q0, hr⟩ :=
      Option.isSome_iff_exists.mp (h2 node (List.mem_cons_self _ _))
    have ih' := fun hvrest => ih
      (fun n hn => h1 n (List.mem_cons_of_mem _ hn))
      (fun n hn => h2 n (List.mem_cons_of_mem _ hn)) hvrest hev hq
    cases b with
    | false =>
      have hvrest : v ∈ rest := by
        rcases List.mem_cons.mp hv with rfl | hvr
        · rw [he] at hev
          exact absurd hev (by simp)
        · exact hvr
      obtain ⟨p, hp, hpne⟩ := ih' hvrest
      refine ⟨p, ?_, hpne⟩
      rw [show tryNodes g current recur (node :: rest)
        = tryNodes g current recur rest from by simp [tryNodes, he]]
      exact hp
    | true =>
      by_cases hq0 : q0 = []
      · have hvrest : v ∈ rest := by
          rcases List.mem_cons.mp hv with rfl | hvr
          · exact absurd hq0 (hq q0 hr)
          · exact hvr
        obtain ⟨p, hp, hpne⟩ := ih' hvrest
        refine ⟨p, ?_, hpne⟩
        rw [show tryNodes g current recur (node :: rest)
          = tryNodes g current recur rest from by simp [tryNodes, he, hr, hq0]]
        exact hp
      · refine ⟨q0, ?_, hq0⟩
        rw [show tryNodes g current recur (node :: rest) = some q0 from by
          simp [tryNodes, he, hr, hq0]]

lemma get_path_complete {g : Graph} (hwf : WF g NODES_N) :
    ∀ (rest path : List Nat) (current fuel : Nat),
    path.Nodup → (∀ x ∈ path, x < NODES_N) → current < NODES_N →
    current ∉ path →
    NODES_N + 1 - path.length < fuel →
    (path ++ current :: rest).Nodup →
    (∀ x ∈ rest, x < NODES_N) →
    (path ++ current :: rest).length = NODES_N →
    List.Chain' (Adj g) (current :: rest) →
    (∀ z ∈ (current :: rest).getLast?, Adj g z 0) →
    ∃ p, get_path g fuel path current = some p ∧ p ≠ [] := by
  intro rest
  induction rest with
  | nil =>
    intro path current fuel hnd hbnd hcur hmem hfuel hndfull hbrest hlen
      hchain hlast
    have hplen : path.length + 1 = NODES_N := by
      simpa using hlen
    cases fuel with
    | zero => exact absurd hfuel (Nat.not_lt_zero _)
    | succ fuel =>
      have hguard : ¬(current = 0 ∧ path.length = NODES_N) := by
        rintro ⟨-, hc⟩
        omega
      have hAdj : Adj g current 0 := hlast current (by simp)
      cases fuel with
      | zero => exact absurd hfuel (by omega)
      | succ fuel =>
        rw [get_path_succ, if_neg hguard, if_neg hmem]
        have h0mem : (0 : Nat) ∈ List.range NODES_N := by
          rw [range_NODES_N]
          simp
        refine tryNodes_finds (List.range NODES_N) ?_ ?_ h0mem hAdj ?_
        · intro node hnode
          obtain ⟨w, hw⟩ := readEdge_isSome hwf hcur (List.mem_range.mp hnode)
          simp [hw]
        · intro node hnode
          apply get_path_isSome hwf _ _ node (path_ext_nodup hnd hmem)
            (path_ext_bounded hbnd hcur) (List.mem_range.mp hnode)
          simp only [List.length_append, List.length_cons, List.length_nil]
          omega
        · intro q hq
          have hsucc : get_path g (fuel + 1) (path ++ [current]) 0
              = some ((path ++ [current]) ++ [0]) := by
            rw [get_path_succ, if_pos ⟨rfl, by
              simp only [List.length_append, List.length_cons, List.length_nil]
              omega⟩]
          rw [hsucc] at hq
          injection hq with hq
          rw [← hq]
          simp
  | cons v rest' ih =>
    intro path current fuel hnd hbnd hcur hmem hfuel hndfull hbrest hlen
      hchain hlast
    cases fuel with
    | zero => exact absurd hfuel (Nat.not_lt_zero _)
    | succ fuel =>
      have hlenL : path.length + 2 + rest'.length = NODES_N := by
        simp only [List.length_append, List.length_cons] at hlen
        omega
      have hguard : ¬(current = 0 ∧ path.length = NODES_N) := by
        rintro ⟨-, hc⟩
        omega
      rw [get_path_succ, if_neg hguard, if_neg hmem]
      have hv11 : v < NODES_N := hbrest v (List.mem_cons_self _ _)
      have hvmem : v ∈ List.range NODES_N := List.mem_range.mpr hv11
      have hedge : readEdge g current v = some true :=
        (List.chain'_cons.mp hchain).1
      refine tryNodes_finds (List.range NODES_N) ?_ ?_ hvmem hedge ?_
      · intro node hnode
        obtain ⟨w, hw⟩ := readEdge_isSome hwf hcur (List.mem_range.mp hnode)
        simp [hw]
      · intro node hnode
        apply get_path_isSome hwf _ _ node (path_ext_nodup hnd hmem)
          (path_ext_bounded hbnd hcur) (List.mem_range.mp hnode)
        simp only [List.length_append, List.length_cons, List.length_nil]
        omega
      · intro q hq
        have hvpath : v ∉ path := by
          have hdisj := (List.nodup_append.mp hndfull).2.2
          intro hvp
          exact hdisj hvp (by simp)
        have hvcur : v ≠ current := by
          have hcons := (List.nodup_append.mp hndfull).2.1
          have hnc := (List.nodup_cons.mp hcons).1
          intro hvc
          exact hnc (by simp [hvc])
        have hvnotmem : v ∉ path ++ [current] := by
          intro hvc
          rcases List.mem_append.mp hvc with h | h
          · exact hvpath h
          · exact hvcur (by simpa using h)
        have hndfull' : ((path ++ [current]) ++ v :: rest').Nodup := by
          rw [List.append_assoc]
          simpa using hndfull
        have hlast' : ∀ z ∈ (v :: rest').getLast?, Adj g z 0 := by
          intro z hz
          apply hlast
          rw [List.getLast?_cons_cons]
          exact hz
        obtain ⟨p, hp, hpne⟩ := ih (path ++ [current]) v fuel
          (path_ext_nodup hnd hmem) (path_ext_bounded hbnd hcur) hv11
          hvnotmem
          (by simp only [List.length_append, List.length_cons, List.length_nil]
              omega)
          hndfull'
          (fun x hx => hbrest x (List.mem_cons_of_mem _ hx))
          (by simp only [List.length_append, List.length_cons, List.length_nil]
              omega)
          (List.chain'_cons.mp hchain).2 hlast'
        rw [hp] at hq
        injection hq with hq
        rw [← hq]
        exact hpne

/-! ## Oracle lemmas: out-of-bounds panic below NODES_N -/

lemma tryNodes_empty {g : Graph} {current : Nat}
    {recur : Nat → Option (List Nat)} :
    ∀ nodes : List Nat,
    (∀ node ∈ nodes, ∀ q, recur node = some q → q = []) →
    ∀ p, tryNodes g current recur nodes = some p → p = [] := by
  intro nodes
  induction nodes with
  | nil =>
    intro _ p hp
    simp only [tryNodes, Option.some.injEq] at hp
    exact hp.symm
  | cons node rest ih =>
    intro h p hp
    cases he : readEdge g current node with
    | none => simp [tryNodes, he] at hp
    | some b =>
      cases b with
      | false =>
        rw [show tryNodes g current recur (node :: rest)
          = tryNodes g current recur rest from by simp [tryNodes, he]] at hp
        exact ih (fun n hn => h n (List.mem_cons_of_mem _ hn)) p hp
      | true =>
        cases hr : recur node with
        | none => simp [tryNodes, he, hr] at hp
        | some q =>
          have hq := h node (List.mem_cons_self _ _) q hr
          subst hq
          rw [show tryNodes g current recur (node :: rest)
            = tryNodes g current recur rest from by
            simp [tryNodes, he, hr]] at hp
          exact ih (fun n hn => h n (List.mem_cons_of_mem _ hn)) p hp

lemma get_path_small {g : Graph} {n : Nat} (hwf : WF g n) (hn : n < NODES_N) :
    ∀ fuel path current, path.Nodup → (∀ x ∈ path, x < n) →
    ∀ p, get_path g fuel path current = some p → p = [] := by
  intro fuel
  induction fuel with
  | zero =>
    intro path current _ _ p hp
    simp [get_path] at hp
  | succ fuel ih =>
    intro path current hnd hbnd p hp
    have hlen : path.length ≤ n := nodup_bounded_length_le hnd hbnd
    have hguard : ¬(current = 0 ∧ path.length = NODES_N) := by
      rintro ⟨-, hc⟩
      omega
    simp only [get_path] at hp
    rw [if_neg hguard] at hp
    by_cases hmem : current ∈ path
    · rw [if_pos hmem] at hp
      injection hp with hp
      exact hp.symm
    · rw [if_neg hmem] at hp
      by_cases hcur : current < n
      · refine tryNodes_empty (List.range NODES_N) ?_ p hp
        intro node hnode q hq
        refine ih (path ++ [current]) node (path_ext_nodup hnd hmem) ?_ q hq
        intro x hx
        rcases List.mem_append.mp hx with h | h
        · exact hbnd x h
        · have hxc : x = current := by simpa using h
          exact hxc ▸ hcur
      · have h0 : readEdge g current 0 = none :=
          readEdge_none_of_row hwf (by omega) 0
        rw [range_NODES_N] at hp
        simp [tryNodes, h0] at hp

lemma tryNodes_oob {g : Graph} {n current : Nat} (hwf : WF g n)
    (hcur : current < n) {recur : Nat → Option (List Nat)} :
    ∀ nodes : List Nat,
    (∃ x ∈ nodes, n ≤ x) →
    (∀ node ∈ nodes, ∀ q, recur node = some q → q = []) →
    tryNodes g current recur nodes = none := by
  intro nodes
  induction nodes with
  | nil =>
    rintro ⟨x, hx, -⟩ _
    exact absurd hx (by simp)
  | cons node rest ih =>
    rintro ⟨x, hx, hxn⟩ hrec
    by_cases hnode : node < n
    · obtain ⟨b, he⟩ := readEdge_isSome hwf hcur hnode
      have hxrest : x ∈ rest := by
        rcases List.mem_cons.mp hx with rfl | h
        · exact absurd hxn (by omega)
        · exact h
      have ihr := ih ⟨x, hxrest, hxn⟩
        (fun nn hn => hrec nn (List.mem_cons_of_mem _ hn))
      cases b with
      | false =>
        rw [show tryNodes g current recur (node :: rest)
          = tryNodes g current recur rest from by simp [tryNodes, he]]
        exact ihr
      | true =>
        cases hr : recur node with
        | none => simp [tryNodes, he, hr]
        | some q =>
          have hq := hrec node (List.mem_cons_self _ _) q hr
          subst hq
          rw [show tryNodes g current recur (node :: rest)
            = tryNodes g current recur rest from by simp [tryNodes, he, hr]]
          exact ihr
    · have hnone : readEdge g current node = none :=
        readEdge_none_of_col hwf hcur (by omega)
      simp [tryNodes, hnone]

lemma get_cycle_small_none {g : Graph} {n : Nat} (hwf : WF g n)
    (h3 : 3 ≤ n) (hn : n < NODES_N) : get_cycle g = none := by
  unfold get_cycle
  rw [show NODES_N + 2 = 12 + 1 from rfl]
  simp only [get_path]
  rw [if_neg (by rintro ⟨-, hc⟩; simp [NODES_N] at hc), if_neg (by simp)]
  apply tryNodes_oob hwf (show (0 : Nat) < n by omega)
  · exact ⟨n, List.mem_range.mpr hn, Nat.le_refl n⟩
  · intro node hnode q hq
    refine get_path_small hwf hn 12 ([] ++ [0]) node (by simp) ?_ q hq
    intro x hx
    simp at hx
    omega

/-! ## Oracle corollaries -/

lemma get_cycle_sound_aux {g : Graph} {p : List Nat}
    (hp : get_cycle g = some p) (hne : p ≠ []) :
    ∃ q, p = q ++ [0] ∧ CyclePath g q := by
  refine get_path_sound (NODES_N + 2) [] 0 p List.nodup_nil ?_ (by decide)
    ?_ ?_ hp hne
  · intro x hx
    simp at hx
  · intro _
    rfl
  · intro hcon
    exact absurd rfl hcon

lemma cyclePath_isHamCycle {g : Graph} {q : List Nat} (h : CyclePath g q) :
    IsHamCycle g (q ++ [0]) := by
  obtain ⟨hhead, hnd, hlen, hcov, hbnd, hchain⟩ := h
  refine ⟨by simp [hlen], ?_, ?_, ?_, ?_, hchain⟩
  · rw [List.head?_append, hhead, List.getLast?_concat]
    rfl
  · rw [show NODES_N = q.length from hlen.symm, List.take_left]
    exact hnd
  · intro x hx
    rw [show NODES_N = q.length from hlen.symm, List.take_left]
    exact hcov x hx
  · intro x hx
    rcases List.mem_append.mp hx with h | h
    · exact hbnd x h
    · have hx0 : x = 0 := by simpa using h
      subst hx0
      decide

lemma hamcycle_rotate {g : Graph} {l : List Nat} (h : IsHamCycle g l) :
    ∃ rest : List Nat, (0 :: rest).Nodup ∧ (∀ x ∈ rest, x < NODES_N) ∧
      (0 :: rest).length = NODES_N ∧ List.Chain' (Adj g) (0 :: rest) ∧
      (∀ z ∈ (0 :: rest).getLast?, Adj g z 0) := by
  obtain ⟨hlen, hht, hnd, hcov, hbnd, hch⟩ := h
  have hlq : (l.take NODES_N).length = NODES_N := by
    rw [List.length_take]
    omega
  obtain ⟨z, hz⟩ : ∃ z, l.drop NODES_N = [z] := by
    rw [← List.length_eq_one, List.length_drop]
    omega
  have hlsplit : l = l.take NODES_N ++ [z] := by
    conv_lhs => rw [← List.take_append_drop NODES_N l]
    rw [hz]
  set q := l.take NODES_N with hqdef
  have hqne : q ≠ [] := by
    intro hcon
    rw [hcon] at hlq
    simp [NODES_N] at hlq
  have hhl : l.head? = q.head? := by
    rw [hlsplit, List.head?_append]
    cases hq0 : q.head? with
    | none => exact absurd (List.head?_eq_none_iff.mp hq0) hqne
    | some a => rfl
  have hlastl : l.getLast? = some z := by
    rw [hlsplit]
    exact List.getLast?_concat _
  have hqz : q.head? = some z := by
    rw [← hhl, hht, hlastl]
  have h0q : (0 : Nat) ∈ q := hcov 0 (by decide)
  obtain ⟨a, b, hab⟩ := List.append_of_mem h0q
  have hl2 : l = a ++ ((0 : Nat) :: (b ++ [z])) := by
    rw [hlsplit, hab]
    simp
  rw [hl2] at hch
  rw [List.chain'_append] at hch
  obtain ⟨hchA, hchMid, hlinkA⟩ := hch
  rw [show (0 : Nat) :: (b ++ [z]) = ((0 : Nat) :: b) ++ [z] from by simp]
    at hchMid
  rw [List.chain'_append] at hchMid
  obtain ⟨hch0b, -, hlinkZ⟩ := hchMid
  have hperm : q.Perm ((0 : Nat) :: (b ++ a)) := by
    rw [hab]
    exact List.perm_middle.trans (List.Perm.cons 0 List.perm_append_comm)
  have hmemq : ∀ x, x ∈ (0 : Nat) :: (b ++ a) → x ∈ q :=
    fun x hx => hperm.mem_iff.mpr hx
  refine ⟨b ++ a, hperm.nodup hnd, ?_, ?_, ?_, ?_⟩
  · intro x hx
    have hxl : x ∈ l := by
      rw [hlsplit]
      exact List.mem_append_left _ (hmemq x (List.mem_cons_of_mem _ hx))
    exact hbnd x hxl
  · rw [← hperm.length_eq, hlq]
  · rw [show (0 : Nat) :: (b ++ a) = ((0 : Nat) :: b) ++ a from by simp]
    rw [List.chain'_append]
    refine ⟨hch0b, hchA, ?_⟩
    intro x hx y hy
    cases a with
    | nil => simp at hy
    | cons a0 a' =>
      have hza : z = a0 := by
        rw [hab] at hqz
        have : (a0 :: a' ++ (0 : Nat) :: b).head? = some a0 := rfl
        rw [this] at hqz
        injection hqz with hqz
        exact hqz.symm
      have hy' : a0 = y := by simpa using hy
      subst hy'
      rw [← hza]
      exact hlinkZ x hx z (by simp)
  · intro w hw
    cases a with
    | nil =>
      have hz0 : z = 0 := by
        rw [hab] at hqz
        simp at hqz
        exact hqz.symm
      simp only [List.append_nil] at hw
      have := hlinkZ w hw z (by simp)
      rw [hz0] at this
      exact this
    | cons a0 a' =>
      rw [show (0 : Nat) :: (b ++ a0 :: a') = ((0 : Nat) :: b) ++ a0 :: a'
        from rfl] at hw
      rw [List.getLast?_append_of_ne_nil ((0 : Nat) :: b)
        (show (a0 :: a') ≠ [] by simp)] at hw
      have hy0 : (0 : Nat) ∈ ((0 : Nat) :: (b ++ [z])).head? := by simp
      exact hlinkA w hw 0 hy0

lemma get_cycle_of_hamcycle {g : Graph} (hwf : WF g NODES_N)
    (h : ∃ l, IsHamCycle g l) : ∃ p, get_cycle g = some p ∧ p ≠ [] := by
  obtain ⟨l, hl⟩ := h
  obtain ⟨rest, hnd, hbnd, hlen, hch, hlast⟩ := hamcycle_rotate hl
  exact get_path_complete hwf rest [] 0 (NODES_N + 2)
    List.nodup_nil (by intro x hx; simp at hx) (by decide) (by simp)
    (by decide) (by simpa using hnd) hbnd (by simpa using hlen) hch hlast

/-! ## Minimum degree of a graph with a found cycle -/

lemma Adj_symm {g : Graph} (hsym : Symm g) {a b : Nat} (h : Adj g a b) :
    Adj g b a := by
  unfold Adj at h ⊢
  rw [hsym b a]
  exact h

lemma nodup_get_inj {l : List Nat} (h : l.Nodup) {i j : Nat}
    (hi : i < l.length) (hj : j < l.length)
    (he : l.get ⟨i, hi⟩ = l.get ⟨j, hj⟩) : i = j := by
  have hf := (List.Nodup.get_inj_iff h).mp he
  simpa using congrArg Fin.val hf

lemma adj_row_entry {g : Graph} {n u x : Nat} (hwf : WF g n) (hu : u < n)
    (hadj : Adj g u x) :
    ∃ row, g.edges[u]? = some row ∧ row[x]? = some true := by
  obtain ⟨row, hrow, -⟩ := WF_rows hwf hu
  refine ⟨row, hrow, ?_⟩
  unfold Adj readEdge at hadj
  rw [entry_of_rows hrow] at hadj
  exact hadj

lemma degree_two_of_adj {g : Graph} {n u x y : Nat} (hwf : WF g n)
    (hu : u < n) (hxy : x ≠ y) (hx : Adj g u x) (hy : Adj g u y) :
    2 ≤ degree g u := by
  obtain ⟨row, hrow, hxr⟩ := adj_row_entry hwf hu hx
  obtain ⟨row', hrow', hyr⟩ := adj_row_entry hwf hu hy
  rw [hrow] at hrow'
  have hrr : row' = row := by injection hrow'.symm
  subst hrr
  unfold degree
  rw [hrow]
  exact two_le_count_true row' x y hxy hxr hyr

lemma get_idx_congr {l : List Nat} {i j : Nat} (hi : i < l.length)
    (h : i = j) (hj : j < l.length) : l.get ⟨i, hi⟩ = l.get ⟨j, hj⟩ := by
  subst h
  rfl

lemma Adj_congr_left {g : Graph} {a b c : Nat} (h : Adj g a b) (e : a = c) :
    Adj g c b := e ▸ h

lemma Adj_congr_right {g : Graph} {a b c : Nat} (h : Adj g a b) (e : b = c) :
    Adj g a c := e ▸ h

lemma cyclePath_min_degree {g : Graph} (hwf : WF g NODES_N) (hsym : Symm g)
    {q : List Nat} (hq : CyclePath g q) :
    ∀ u, u < NODES_N → 2 ≤ degree g u := by
  obtain ⟨hhead, hnd, hlen, hcov, hbnd, hchain⟩ := hq
  have hN : NODES_N = 11 := rfl
  intro u hu
  obtain ⟨k, hk, hku⟩ := List.mem_iff_getElem.mp (hcov u hu)
  have hchq : List.Chain' (Adj g) q := (List.chain'_append.mp hchain).1
  have hstepq := List.chain'_iff_get.mp hchq
  have hlast10 : q.getLast? = some (q.get ⟨NODES_N - 1, by omega⟩) := by
    rw [List.getLast?_eq_getElem? q,
      List.getElem?_eq_getElem (show q.length - 1 < q.length by omega)]
    exact congrArg some (get_idx_congr (by omega) (by omega) (by omega))
  have hclose : Adj g (q.get ⟨NODES_N - 1, by omega⟩) 0 := by
    have hlk := (List.chain'_append.mp hchain).2.2
    exact hlk _ (by rw [hlast10]; rfl) 0 (by simp)
  have hq0 : q.get ⟨0, by omega⟩ = 0 := by
    have h0 : q[0]? = some 0 := by
      rw [← List.head?_eq_getElem? q]
      exact hhead
    have hg0 := List.getElem?_eq_getElem (show 0 < q.length by omega)
    rw [hg0] at h0
    injection h0
  have hku' : q.get ⟨k, hk⟩ = u := hku
  have hkN : k < NODES_N := by omega
  by_cases hk0 : k = 0
  · subst hk0
    have hu0 : u = 0 := by
      rw [← hku']
      exact hq0
    have hx : Adj g u (q.get ⟨1, by omega⟩) := by
      have hs := hstepq 0 (by omega)
      exact Adj_congr_left hs hku'
    have hy : Adj g u (q.get ⟨NODES_N - 1, by omega⟩) := by
      have hs := Adj_symm hsym hclose
      exact Adj_congr_left hs hu0.symm
    refine degree_two_of_adj hwf hu ?_ hx hy
    intro hcon
    have := nodup_get_inj hnd (by omega) (by omega) hcon
    omega
  · by_cases hktop : k + 1 = NODES_N
    · have hx : Adj g u 0 := by
        have he : q.get ⟨NODES_N - 1, by omega⟩ = u :=
          (get_idx_congr (by omega) (by omega) hk).trans hku'
        exact Adj_congr_left hclose he
      have hy : Adj g u (q.get ⟨k - 1, by omega⟩) := by
        have hs := hstepq (k - 1) (by omega)
        have he : q.get ⟨k - 1 + 1, by omega⟩ = u :=
          (get_idx_congr (by omega) (by omega) hk).trans hku'
        exact Adj_symm hsym (Adj_congr_right hs he)
      refine degree_two_of_adj hwf hu ?_ hx hy
      intro hcon
      have h0k : q.get ⟨0, by omega⟩ = q.get ⟨k - 1, by omega⟩ := by
        rw [hq0]
        exact hcon
      have := nodup_get_inj hnd (by omega) (by omega) h0k
      omega
    · have hx : Adj g u (q.get ⟨k + 1, by omega⟩) := by
        have hs := hstepq k (by omega)
        exact Adj_congr_left hs hku'
      have hy : Adj g u (q.get ⟨k - 1, by omega⟩) := by
        have hs := hstepq (k - 1) (by omega)
        have he : q.get ⟨k - 1 + 1, by omega⟩ = u :=
          (get_idx_congr (by omega) (by omega) hk).trans hku'
        exact Adj_symm hsym (Adj_congr_right hs he)
      refine degree_two_of_adj hwf hu ?_ hx hy
      intro hcon
      have := nodup_get_inj hnd (by omega) (by omega) hcon
      omega

/-! ## generate: symmetry and diagonal corollaries -/

lemma generate_some_spec {g g' : Graph} {n : Nat} {r : Nat → Nat → Bool}
    (hwf : WF g n) (h : generate g r = some g') :
    WF g' n ∧ g'.nodes_n = g.nodes_n ∧
    (∀ a b, readEdge g' a b =
      if a < b ∧ b < n then some (r a b)
      else if b < a ∧ a < n then some (r b a) else readEdge g a b) := by
  obtain ⟨g2, h1, h2, h3, h4⟩ := generate_spec r hwf
  rw [h] at h1
  have hg : g' = g2 := by injection h1
  subst hg
  exact ⟨h2, h3, h4⟩

lemma generate_Symm {g g' : Graph} {n : Nat} {r : Nat → Nat → Bool}
    (hwf : WF g n) (h : generate g r = some g') : Symm g' := by
  obtain ⟨hwf', -, hent⟩ := generate_some_spec hwf h
  intro i j
  rw [hent i j, hent j i]
  by_cases h1 : i < j ∧ j < n
  · rw [if_pos h1, if_neg (by omega), if_pos (by omega : i < j ∧ j < n)]
  · rw [if_neg h1]
    by_cases h2 : j < i ∧ i < n
    · rw [if_pos h2, if_pos (by omega : j < i ∧ i < n)]
    · rw [if_neg h2, if_neg (by omega : ¬(j < i ∧ i < n)),
        if_neg (by omega : ¬(i < j ∧ j < n))]
      by_cases hi : i < n
      · by_cases hj : j < n
        · have hij : i = j := by omega
          rw [hij]
        · rw [readEdge_none_of_col hwf hi (by omega),
            readEdge_none_of_row hwf (by omega) i]
      · by_cases hj : j < n
        · rw [readEdge_none_of_row hwf (by omega) j,
            readEdge_none_of_col hwf hj (by omega)]
        · rw [readEdge_none_of_row hwf (by omega) j,
            readEdge_none_of_row hwf (by omega) i]

lemma generate_DiagFalse {g g' : Graph} {n : Nat} {r : Nat → Nat → Bool}
    (hwf : WF g n) (hd : DiagFalse g) (h : generate g r = some g') :
    DiagFalse g' := by
  obtain ⟨hwf', hnn, hent⟩ := generate_some_spec hwf h
  intro i hi
  rw [hent i i, if_neg (by omega), if_neg (by omega)]
  apply hd
  omega

/-! ## generate_with_given_kind: accepted graphs -/

lemma gen_with_kind_zero (kind : GraphKind) (imp : Bool)
    (rs : Nat → Nat → Nat → Bool) (k : Nat) (g : Graph) :
    generate_with_given_kind kind imp rs 0 k g = none := rfl

lemma gen_with_kind_succ (kind : GraphKind) (imp : Bool)
    (rs : Nat → Nat → Nat → Bool) (fuel k : Nat) (g g2 : Graph)
    (hgen : generate g (rs k) = some g2) :
    generate_with_given_kind kind imp rs (fuel + 1) k g =
      if imp && skip_check kind g2 then
        generate_with_given_kind kind imp rs fuel (k + 1) g2
      else
        match get_cycle g2 with
        | none => none
        | some p =>
          if (decide (p = [])) != (decide (kind = GraphKind.Hamiltonian)) then
            some g2
          else
            generate_with_given_kind kind imp rs fuel (k + 1)
              (Graph.new NODES_N) := by
  simp [generate_with_given_kind, hgen]

lemma gen_kind_spec {kind : GraphKind} {imp : Bool}
    {rs : Nat → Nat → Nat → Bool} :
    ∀ (fuel k : Nat) (g0 g : Graph), WF g0 NODES_N → DiagFalse g0 →
    generate_with_given_kind kind imp rs fuel k g0 = some g →
    WF g NODES_N ∧ DiagFalse g ∧ Symm g ∧
    (imp = true → skip_check kind g = false) ∧
    ∃ p, get_cycle g = some p ∧
      ((p = []) ↔ kind ≠ GraphKind.Hamiltonian) := by
  intro fuel
  induction fuel with
  | zero =>
    intro k g0 g _ _ h
    simp [generate_with_given_kind] at h
  | succ fuel ih =>
    intro k g0 g hwf hdiag h
    cases hgen : generate g0 (rs k) with
    | none => simp [generate_with_given_kind, hgen] at h
    | some g2 =>
      have hwf2 : WF g2 NODES_N := (generate_some_spec hwf hgen).1
      have hsym2 : Symm g2 := generate_Symm hwf hgen
      have hdiag2 : DiagFalse g2 := generate_DiagFalse hwf hdiag hgen
      rw [gen_with_kind_succ kind imp rs fuel k g0 g2 hgen] at h
      by_cases hskip : (imp && skip_check kind g2) = true
      · rw [if_pos hskip] at h
        exact ih (k + 1) g2 g hwf2 hdiag2 h
      · rw [if_neg hskip] at h
        cases hcyc : get_cycle g2 with
        | none => simp [hcyc] at h
        | some p =>
          simp only [hcyc] at h
          by_cases hbr :
              ((decide (p = [])) != (decide (kind = GraphKind.Hamiltonian)))
                = true
          · rw [if_pos hbr] at h
            have hg : g = g2 := by
              injection h with h
              exact h.symm
            subst hg
            refine ⟨hwf2, hdiag2, hsym2, ?_, p, hcyc, ?_⟩
            · intro himp
              subst himp
              simpa using hskip
            · have hne : ¬((p = []) ↔ (kind = GraphKind.Hamiltonian)) := by
                rw [← decide_eq_decide]
                exact bne_iff_ne.mp hbr
              constructor
              · intro hp hkind
                exact hne ⟨fun _ => hkind, fun _ => hp⟩
              · intro hkind
                by_cases hp : p = []
                · exact hp
                · exact absurd (Iff.intro
                    (fun h1 => absurd h1 hp)
                    (fun h2 => absurd h2 hkind)).symm
                    (fun hc => hne (Iff.intro
                      (fun h1 => absurd h1 hp)
                      (fun h2 => absurd h2 hkind)))
          · rw [if_neg hbr] at h
            exact ih (k + 1) (Graph.new NODES_N) g (WF_new NODES_N)
              (DiagFalse_new NODES_N) h

/-! ## run_class fold lemmas -/

lemma safety_new : safety (Graph.new NODES_N) = some () := by decide

lemma class_foldl_none (kind : GraphKind) (imp : Bool)
    (rs : Nat → Nat → Nat → Nat → Bool) (fuel : Nat) :
    ∀ idxs : List Nat,
    idxs.foldl (class_step kind imp rs fuel) none = none := by
  intro idxs
  induction idxs with
  | nil => rfl
  | cons i rest ih =>
    rw [List.foldl_cons]
    exact ih

lemma class_step_some (kind : GraphKind) (imp : Bool)
    (rs : Nat → Nat → Nat → Nat → Bool) (fuel : Nat)
    (l : List (List (List Bool))) (i : Nat) {g : Graph}
    (hgen : generate_with_given_kind kind imp (rs i) fuel 0 (Graph.new NODES_N)
      = some g) :
    class_step kind imp rs fuel (some l) i = some (l ++ [g.edges]) := by
  simp [class_step, safety_new, hgen]

lemma class_step_none (kind : GraphKind) (imp : Bool)
    (rs : Nat → Nat → Nat → Nat → Bool) (fuel : Nat)
    (l : List (List (List Bool))) (i : Nat)
    (hgen : generate_with_given_kind kind imp (rs i) fuel 0 (Graph.new NODES_N)
      = none) :
    class_step kind imp rs fuel (some l) i = none := by
  simp [class_step, safety_new, hgen]

lemma class_foldl_length (kind : GraphKind) (imp : Bool)
    (rs : Nat → Nat → Nat → Nat → Bool) (fuel : Nat) :
    ∀ (idxs : List Nat) (l0 l : List (List (List Bool))),
    idxs.foldl (class_step kind imp rs fuel) (some l0) = some l →
    l.length = l0.length + idxs.length := by
  intro idxs
  induction idxs with
  | nil =>
    intro l0 l h
    simp only [List.foldl_nil, Option.some.injEq] at h
    subst h
    simp
  | cons i rest ih =>
    intro l0 l h
    rw [List.foldl_cons] at h
    cases hgen : generate_with_given_kind kind imp (rs i) fuel 0
        (Graph.new NODES_N) with
    | none =>
      rw [class_step_none kind imp rs fuel l0 i hgen,
        class_foldl_none kind imp rs fuel rest] at h
      exact absurd h (by simp)
    | some g =>
      rw [class_step_some kind imp rs fuel l0 i hgen] at h
      have := ih (l0 ++ [g.edges]) l h
      simp only [List.length_append, List.length_cons, List.length_nil] at this ⊢
      omega

lemma class_foldl_mem (kind : GraphKind) (imp : Bool)
    (rs : Nat → Nat → Nat → Nat → Bool) (fuel : Nat) :
    ∀ (idxs : List Nat) (l0 l : List (List (List Bool))),
    idxs.foldl (class_step kind imp rs fuel) (some l0) = some l →
    ∀ m ∈ l, m ∈ l0 ∨ ∃ i g,
      generate_with_given_kind kind imp (rs i) fuel 0 (Graph.new NODES_N)
        = some g ∧ m = g.edges := by
  intro idxs
  induction idxs with
  | nil =>
    intro l0 l h m hm
    simp only [List.foldl_nil, Option.some.injEq] at h
    subst h
    exact Or.inl hm
  | cons i rest ih =>
    intro l0 l h m hm
    rw [List.foldl_cons] at h
    cases hgen : generate_with_given_kind kind imp (rs i) fuel 0
        (Graph.new NODES_N) with
    | none =>
      rw [class_step_none kind imp rs fuel l0 i hgen,
        class_foldl_none kind imp rs fuel rest] at h
      exact absurd h (by simp)
    | some g =>
      rw [class_step_some kind imp rs fuel l0 i hgen] at h
      rcases ih (l0 ++ [g.edges]) l h m hm with hin | hex
      · rcases List.mem_append.mp hin with h1 | h1
        · exact Or.inl h1
        · have hmg : m = g.edges := by simpa using h1
          exact Or.inr ⟨i, g, hgen, hmg⟩
      · exact Or.inr hex

lemma class_foldl_const (kind : GraphKind) (imp : Bool)
    (rs : Nat → Nat → Nat → Nat → Bool) (fuel : Nat) {G : Graph}
    (hconst : ∀ i, generate_with_given_kind kind imp (rs i) fuel 0
      (Graph.new NODES_N) = some G) :
    ∀ (n s : Nat) (l0 : List (List (List Bool))),
    (List.range' s n).foldl (class_step kind imp rs fuel) (some l0)
      = some (l0 ++ List.replicate n G.edges) := by
  intro n
  induction n with
  | zero =>
    intro s l0
    simp
  | succ n ih =>
    intro s l0
    rw [List.range'_succ s n 1, List.foldl_cons,
      class_step_some kind imp rs fuel l0 s (hconst s), ih (s + 1)]
    rw [List.append_assoc]
    rfl

/-! ## The never-terminating loop on constant-false randomness -/

lemma gen_kind_constfalse : ∀ fuel k,
    generate_with_given_kind GraphKind.NonHamiltonian true
      (fun _ _ _ => false) fuel k (Graph.new NODES_N) = none := by
  intro fuel
  induction fuel with
  | zero => intro k; rfl
  | succ fuel ih =>
    intro k
    have hgen : generate (Graph.new NODES_N) (fun _ _ => false)
        = some (Graph.new NODES_N) := by decide
    have hskip : skip_check GraphKind.NonHamiltonian (Graph.new NODES_N)
        = true := by decide
    rw [gen_with_kind_succ GraphKind.NonHamiltonian true (fun _ _ _ => false)
      fuel k (Graph.new NODES_N) (Graph.new NODES_N) hgen,
      if_pos (by rw [hskip]; rfl)]
    exact ih (k + 1)

lemma run_class_constfalse (fuel : Nat) :
    run_class GraphKind.NonHamiltonian true (fun _ _ _ _ => false) fuel
      = none := by
  unfold run_class
  rw [List.range_eq_range' GRAPHS_N,
    show GRAPHS_N = 99999 + 1 from rfl, List.range'_succ 0 99999 1,
    List.foldl_cons,
    class_step_none GraphKind.NonHamiltonian true (fun _ _ _ _ => false) fuel
      [] 0 (gen_kind_constfalse fuel 0)]
  exact class_foldl_none _ _ _ _ _

/-! ## Claim C1: oracle soundness -/

/-- C1 counterexample: the claim measures the returned sequence against the
graph's own `node_count` and demands that it visit every node of the graph.
On the complete graph with 12 nodes, `get_cycle` succeeds with a sequence of
length 12, not `nodes_n + 1 = 13`, and the sequence never visits node 11:
the oracle's sequence length and coverage are tied to the compile-time
constant `NODES_N`, not to `nodes_n`. -/
theorem C1_counterexample :
    get_cycle complete12 = some [0, 1, 2, 3, 4, 5, 6, 7, 8, 9, 10, 0] ∧
    complete12.nodes_n + 1 = 13 ∧
    ([0, 1, 2, 3, 4, 5, 6, 7, 8, 9, 10, 0] : List Nat).length = 12 ∧
    ¬ (∀ x, x < complete12.nodes_n →
      x ∈ ([0, 1, 2, 3, 4, 5, 6, 7, 8, 9, 10, 0] : List Nat)) := by
  refine ⟨by decide, by decide, by decide, ?_⟩
  intro hall
  exact absurd (hall 11 (by decide)) (by decide)

/-- C1 (amended): oracle soundness holds with `NODES_N` in place of the
graph's `node_count`.  For every `Graph`, if `get_cycle` returns a non-empty
sequence then it has length `NODES_N + 1`, starts and ends at node 0, visits
each of the `NODES_N` nodes exactly once before closing, and every
consecutive pair (including the closing pair back to the start) is a present
edge. -/
theorem C1_oracle_soundness (g : Graph) (p : List Nat)
    (hp : get_cycle g = some p) (hne : p ≠ []) :
    p.length = NODES_N + 1 ∧ p.head? = some 0 ∧ p.getLast? = some 0 ∧
    (p.take NODES_N).Nodup ∧ (∀ x, x < NODES_N → x ∈ p.take NODES_N) ∧
    (∀ x ∈ p, x < NODES_N) ∧ List.Chain' (Adj g) p := by
  obtain ⟨q, rfl, hcp⟩ := get_cycle_sound_aux hp hne
  obtain ⟨hlen, hht, hnd, hcov, hbnd, hch⟩ := cyclePath_isHamCycle hcp
  have hlast : (q ++ [0]).getLast? = some 0 := by
    rw [List.getLast?_concat]
  exact ⟨hlen, hht.trans hlast, hlast, hnd, hcov, hbnd, hch⟩

theorem C1_witness :
    ([0, 1, 2, 3, 4, 5, 6, 7, 8, 9, 10, 0] : List Nat).length = NODES_N + 1 ∧
    ([0, 1, 2, 3, 4, 5, 6, 7, 8, 9, 10, 0] : List Nat).head? = some 0 ∧
    ([0, 1, 2, 3, 4, 5, 6, 7, 8, 9, 10, 0] : List Nat).getLast? = some 0 ∧
    (([0, 1, 2, 3, 4, 5, 6, 7, 8, 9, 10, 0] : List Nat).take NODES_N).Nodup ∧
    (∀ x, x < NODES_N →
      x ∈ ([0, 1, 2, 3, 4, 5, 6, 7, 8, 9, 10, 0] : List Nat).take NODES_N) ∧
    (∀ x ∈ ([0, 1, 2, 3, 4, 5, 6, 7, 8, 9, 10, 0] : List Nat), x < NODES_N) ∧
    List.Chain' (Adj complete11) [0, 1, 2, 3, 4, 5, 6, 7, 8, 9, 10, 0] :=
  C1_oracle_soundness complete11 [0, 1, 2, 3, 4, 5, 6, 7, 8, 9, 10, 0]
    (by decide) (by decide)

/-! ## Claim C2: oracle completeness -/

/-- C2 counterexample: on the complete graph with 4 nodes the claim demands
a non-empty answer, but `get_cycle` does not return at all: it hits the
out-of-bounds access modelled as `none` (a Rust panic), because `get_path`
iterates candidates over `0..NODES_N` on a 4-row matrix. -/
theorem C2_counterexample :
    complete4.nodes_n = 4 ∧ get_cycle complete4 = none := by
  exact ⟨by decide, by decide⟩

/-- C2 (amended): oracle completeness holds for well-formed graphs on
exactly `NODES_N` nodes: `get_cycle` returns a non-empty sequence iff the
graph contains a Hamiltonian cycle (on the `NODES_N` nodes).  The spec's
4-node fixtures must be replaced by `NODES_N`-node ones: the complete graph
on `NODES_N` nodes is answered Hamiltonian and the star graph (node 0
joined to every other node, no other edges) is answered non-Hamiltonian
(empty result). -/
theorem C2_oracle_completeness :
    (∀ g : Graph, WF g NODES_N →
      ((∃ p, get_cycle g = some p ∧ p ≠ []) ↔ ∃ l, IsHamCycle g l)) ∧
    (∃ p, get_cycle complete11 = some p ∧ p ≠ []) ∧
    get_cycle star11 = some [] := by
  refine ⟨?_, ⟨[0, 1, 2, 3, 4, 5, 6, 7, 8, 9, 10, 0], by decide, by decide⟩,
    by decide⟩
  intro g hwf
  constructor
  · rintro ⟨p, hp, hne⟩
    obtain ⟨q, rfl, hcp⟩ := get_cycle_sound_aux hp hne
    exact ⟨q ++ [0], cyclePath_isHamCycle hcp⟩
  · intro h
    exact get_cycle_of_hamcycle hwf h

theorem C2_witness : ∃ l, IsHamCycle complete11 l :=
  (C2_oracle_completeness.1 complete11 (by decide)).mp
    ⟨[0, 1, 2, 3, 4, 5, 6, 7, 8, 9, 10, 0], by decide, by decide⟩

/-! ## Claim C3: edge count of generated graphs -/

/-- C3 counterexample: there is no target that `generate` hits exactly.  The
edge count of the generated graph depends on the random draws: the all-false
stream yields 0 present edges and the all-true stream yields 55, so no
single `target_edge_count` is met by every run. -/
theorem C3_counterexample :
    ¬ ∃ t : Nat, ∀ (r : Nat → Nat → Bool) (g : Graph),
      generate (Graph.new NODES_N) r = some g → edge_count g = t := by
  rintro ⟨t, h⟩
  have h0 := h (fun _ _ => false) (Graph.new NODES_N) (by decide)
  have h55 := h (fun _ _ => true) complete11 (by decide)
  rw [show edge_count (Graph.new NODES_N) = 0 from by decide] at h0
  rw [show edge_count complete11 = 55 from by decide] at h55
  omega

/-- C3 (amended): the code has no `target_edge_count`.  The edge count of a
graph generated from a fresh matrix equals the number of unordered pairs
`i < j < NODES_N` whose random draw came up `true` — it is determined by the
randomness, not by any configured target. -/
theorem C3_generate_edge_count (r : Nat → Nat → Bool) (g : Graph)
    (h : generate (Graph.new NODES_N) r = some g) :
    edge_count g = ((pairList NODES_N).filter (fun p => r p.1 p.2)).length := by
  have hc := generate_new_count h
  unfold edge_count
  omega

theorem C3_witness :
    edge_count complete11
      = ((pairList NODES_N).filter (fun _ => true)).length :=
  C3_generate_edge_count (fun _ _ => true) complete11 (by decide)

/-! ## Claim C4: minimum degree of generated graphs -/

/-- C4 (confirmed): every graph produced by `generate_with_given_kind` with
the `improvements` flag on, starting from a well-formed loop-free matrix
(as the Dataset Builder does, from `Graph::new(NODES_N)`), has minimum
degree at least 2, for either class.  For the non-Hamiltonian class this is
exactly the accepted pre-filter; for the Hamiltonian class it follows from
the found cycle and the symmetry of the matrix. -/
theorem C4_min_degree (kind : GraphKind) (rs : Nat → Nat → Nat → Bool)
    (fuel k : Nat) (g0 g : Graph) (hwf : WF g0 NODES_N)
    (hdiag : DiagFalse g0)
    (h : generate_with_given_kind kind true rs fuel k g0 = some g) :
    ∀ i, i < NODES_N → 2 ≤ degree g i := by
  obtain ⟨hwfg, hdiagg, hsymg, hskip, p, hcyc, hiff⟩ :=
    gen_kind_spec fuel k g0 g hwf hdiag h
  cases kind with
  | Hamiltonian =>
    have hne : p ≠ [] := by
      intro hp
      exact (hiff.mp hp) rfl
    obtain ⟨q, -, hcp⟩ := get_cycle_sound_aux hcyc hne
    exact cyclePath_min_degree hwfg hsymg hcp
  | NonHamiltonian =>
    intro i hi
    have hs := hskip rfl
    unfold skip_check at hs
    rw [List.any_eq_false] at hs
    have hd := hs i (List.mem_range.mpr hi)
    simp only [decide_eq_true_eq] at hd
    omega

theorem C4_witness : 2 ≤ degree triG 0 :=
  C4_min_degree GraphKind.NonHamiltonian (fun _ => triRand) 1 0
    (Graph.new NODES_N) triG (by decide) (by decide) (by decide) 0 (by decide)

/-! ## Claim C5: symmetry and no-self-loop invariants -/

/-- C5 counterexample: the no-self-loop part of the invariant is not
preserved by the edge mutation primitive.  `manage_edge` performs no
`i = j` check, so `manage_edge (Graph.new 3) 0 0 true` succeeds and leaves
`adjacency[0][0] = true`. -/
theorem C5_counterexample :
    (manage_edge (Graph.new 3) 0 0 true).map (fun g => readEdge g 0 0)
      = some (some true) := by decide

/-- C5 (amended): symmetry holds universally — after construction, after
every successful `manage_edge` call with any indices `i`, `j` (the diagonal
call `i = j` included), and after `generate`.  The loop-free diagonal is
conditional: construction yields it, `manage_edge` preserves it provided
`i ≠ j` (the only way the program calls it) and breaks it on the diagonal
(see the counterexample), and `generate` on a well-formed matrix preserves
it. -/
theorem C5_invariants :
    (∀ n : Nat, Symm (Graph.new n) ∧ DiagFalse (Graph.new n)) ∧
    (∀ (g g' : Graph) (i j : Nat) (v : Bool), Symm g →
      manage_edge g i j v = some g' → Symm g') ∧
    (∀ (g g' : Graph) (i j : Nat) (v : Bool), i ≠ j → DiagFalse g →
      manage_edge g i j v = some g' → DiagFalse g') ∧
    (∀ (g g' : Graph) (n : Nat) (r : Nat → Nat → Bool), WF g n →
      DiagFalse g → generate g r = some g' → Symm g' ∧ DiagFalse g') := by
  refine ⟨?_, ?_, ?_, ?_⟩
  · intro n
    constructor
    · intro i j
      rw [readEdge_new, readEdge_new]
      by_cases h : i < n ∧ j < n
      · rw [if_pos h, if_pos (by omega : j < n ∧ i < n)]
      · rw [if_neg h, if_neg (by omega : ¬(j < n ∧ i < n))]
    · exact DiagFalse_new n
  · intro g g' i j v hsymg h
    obtain ⟨-, -, -, hent⟩ := manage_edge_some_spec h
    intro a b
    rw [hent a b, hent b a]
    by_cases hc1 : a = j ∧ b = i
    · rw [if_pos hc1]
      by_cases hc2 : b = j ∧ a = i
      · rw [if_pos hc2]
      · rw [if_neg hc2, if_pos ⟨hc1.2, hc1.1⟩]
    · rw [if_neg hc1]
      by_cases hc2 : a = i ∧ b = j
      · rw [if_pos hc2, if_pos ⟨hc2.2, hc2.1⟩]
      · rw [if_neg hc2, if_neg (fun hc => hc2 ⟨hc.2, hc.1⟩),
          if_neg (fun hc => hc1 ⟨hc.2, hc.1⟩)]
        exact hsymg a b
  · intro g g' i j v hij hdg h
    obtain ⟨hnn, -, -, hent⟩ := manage_edge_some_spec h
    intro a ha
    rw [hent a a,
      if_neg (by rintro ⟨rfl, rfl⟩; exact hij rfl),
      if_neg (by rintro ⟨rfl, rfl⟩; exact hij rfl)]
    apply hdg
    omega
  · intro g g' n r hwf hdg h
    exact ⟨generate_Symm hwf h, generate_DiagFalse hwf hdg h⟩

theorem C5_witness :
    (readEdge g003 0 1 = readEdge g003 1 0 ∧
      readEdge g003 0 0 = readEdge g003 0 0) ∧
    readEdge g013 0 1 = readEdge g013 1 0 ∧ readEdge g013 0 0 = some false := by
  have hdiagsym := C5_invariants.2.1 (Graph.new 3) g003 0 0 true
    (C5_invariants.1 3).1 (by decide)
  have hsym := C5_invariants.2.1 (Graph.new 3) g013 0 1 true
    (C5_invariants.1 3).1 (by decide)
  have hdiag := C5_invariants.2.2.1 (Graph.new 3) g013 0 1 true (by decide)
    (C5_invariants.1 3).2 (by decide)
  exact ⟨⟨hdiagsym 0 1, hdiagsym 0 0⟩, hsym 0 1, hdiag 0 (by decide)⟩

/-! ## Claims C6 and C7: the Dataset Builder -/

lemma gen_kind_cycle_const : ∀ i : Nat,
    generate_with_given_kind GraphKind.Hamiltonian true
      ((fun _ _ => cycleRand) i) 1 0 (Graph.new NODES_N) = some cycleG :=
  fun _ => by
    show generate_with_given_kind GraphKind.Hamiltonian true
      (fun _ => cycleRand) 1 0 (Graph.new NODES_N) = some cycleG
    decide

lemma run_class_cycleG :
    run_class GraphKind.Hamiltonian true (fun _ _ => cycleRand) 1
      = some (List.replicate GRAPHS_N cycleG.edges) := by
  have h := class_foldl_const GraphKind.Hamiltonian true (fun _ _ => cycleRand)
    1 gen_kind_cycle_const GRAPHS_N 0 []
  unfold run_class
  rw [List.range_eq_range' GRAPHS_N]
  simpa using h

/-- C6 counterexample: the build loop need not terminate.  On the constant
`false` randomness stream, `generate_with_given_kind` for the
non-Hamiltonian class skips every candidate (the min-degree pre-filter
rejects the empty graph forever), so no amount of fuel makes `run_class`
produce a collection at all. -/
theorem C6_counterexample :
    ¬ ∃ (fuel : Nat) (l : List (List (List Bool))),
      run_class GraphKind.NonHamiltonian true (fun _ _ _ _ => false) fuel
        = some l := by
  rintro ⟨fuel, l, h⟩
  rw [run_class_constfalse fuel] at h
  exact absurd h (by simp)

/-- C6 (amended): termination is not guaranteed, but the count is: whenever
the build loop for a class does terminate, its collection holds exactly
`GRAPHS_N` (the code's `graphs_per_class`) adjacency matrices. -/
theorem C6_class_count (kind : GraphKind) (imp : Bool)
    (rs : Nat → Nat → Nat → Nat → Bool) (fuel : Nat)
    (l : List (List (List Bool)))
    (h : run_class kind imp rs fuel = some l) : l.length = GRAPHS_N := by
  unfold run_class at h
  have hlen := class_foldl_length kind imp rs fuel (List.range GRAPHS_N) [] l h
  rw [List.length_nil, List.length_range, Nat.zero_add] at hlen
  exact hlen

theorem C6_witness :
    (List.replicate GRAPHS_N cycleG.edges).length = GRAPHS_N :=
  C6_class_count GraphKind.Hamiltonian true (fun _ _ => cycleRand) 1
    (List.replicate GRAPHS_N cycleG.edges) run_class_cycleG

/-- C7 (confirmed): class membership is determined solely by the Oracle.
Every adjacency matrix stored in a class collection, with or without the
`improvements` pre-filtering, satisfies: `get_cycle` on it returns a
sequence that is non-empty iff the class is Hamiltonian. -/
theorem C7_class_membership (kind : GraphKind) (imp : Bool)
    (rs : Nat → Nat → Nat → Nat → Bool) (fuel : Nat)
    (l : List (List (List Bool))) (m : List (List Bool))
    (h : run_class kind imp rs fuel = some l) (hm : m ∈ l) :
    ∃ p, get_cycle { nodes_n := NODES_N, edges := m } = some p ∧
      (p ≠ [] ↔ kind = GraphKind.Hamiltonian) := by
  rcases class_foldl_mem kind imp rs fuel (List.range GRAPHS_N) [] l h m hm
    with hin | ⟨i, g, hgen, hmg⟩
  · exact absurd hin (by simp)
  · obtain ⟨hwfg, -, -, -, p, hcyc, hiff⟩ :=
      gen_kind_spec fuel 0 (Graph.new NODES_N) g (WF_new NODES_N)
        (DiagFalse_new NODES_N) hgen
    have hg : g = { nodes_n := NODES_N, edges := m } := by
      cases g with
      | mk nn ed =>
        have hnn : nn = NODES_N := hwfg.1
        have hed : ed = m := hmg.symm
        rw [hnn, hed]
    refine ⟨p, by rw [← hg]; exact hcyc, ?_⟩
    constructor
    · intro hne
      by_contra hk
      exact hne (hiff.mpr hk)
    · intro hk hpe
      exact (hiff.mp hpe) hk

theorem C7_witness :
    ∃ p, get_cycle { nodes_n := NODES_N, edges := cycleG.edges } = some p ∧
      (p ≠ [] ↔ GraphKind.Hamiltonian = GraphKind.Hamiltonian) :=
  C7_class_membership GraphKind.Hamiltonian true (fun _ _ => cycleRand) 1
    (List.replicate GRAPHS_N cycleG.edges) cycleG.edges run_class_cycleG
    (List.mem_replicate.mpr ⟨by decide, rfl⟩)

/-! ## Claim C8: construction validation -/

/-- C8 counterexample: the code takes no `target_edge_count` and validates
none of the spec's bounds on it.  With `node_count = 3` any target above
`3 * (3 - 1) / 2 = 3` should be rejected, yet construction succeeds
unconditionally and the safety check passes: a `Graph` value is produced. -/
theorem C8_counterexample :
    3 * (3 - 1) / 2 < 100 ∧ safety (Graph.new 3) = some () ∧
    (Graph.new 3).nodes_n = 3 ∧ WF (Graph.new 3) 3 := by decide

/-- C8 (amended): construction never fails — `Graph::new` unconditionally
produces a well-formed all-absent matrix for any `n` — and the only
validation anywhere is the separate `safety` check, which aborts the
process iff `node_count < 3`.  No `target_edge_count` exists or is
validated. -/
theorem C8_construction (n : Nat) :
    (Graph.new n).nodes_n = n ∧ WF (Graph.new n) n ∧
    (safety (Graph.new n) = none ↔ n < 3) := by
  refine ⟨rfl, WF_new n, ?_⟩
  by_cases h : n < 3
  · simp [safety, Graph.new, h]
  · simp [safety, Graph.new, h]

theorem C8_witness : safety (Graph.new 2) = none :=
  (C8_construction 2).2.2.mpr (by decide)

/-! ## Claim C9: the edge mutation primitive -/

/-- C9 counterexample: `manage_edge` does not fail on `i = j`.  It has no
check at all: called on the diagonal it succeeds (no panic, both writes in
bounds) and installs a self-loop. -/
theorem C9_counterexample :
    manage_edge (Graph.new 4) 2 2 true ≠ none ∧
    (manage_edge (Graph.new 4) 2 2 true).map (fun g => readEdge g 2 2)
      = some (some true) := by decide

/-- C9 (amended): for in-bounds indices of a well-formed matrix,
`manage_edge` always succeeds and writes both `adjacency[i][j]` and
`adjacency[j][i]` to the given value — including when `i = j`, where it
writes the diagonal instead of failing. -/
theorem C9_manage_edge (g : Graph) (n i j : Nat) (v : Bool) (hwf : WF g n)
    (hi : i < n) (hj : j < n) :
    ∃ g', manage_edge g i j v = some g' ∧ readEdge g' i j = some v ∧
      readEdge g' j i = some v := by
  obtain ⟨g', hg'⟩ := manage_edge_succeeds hwf hi hj v
  have hent := (manage_edge_some_spec hg').2.2.2
  refine ⟨g', hg', ?_, ?_⟩
  · rw [hent i j]
    by_cases hc : i = j ∧ j = i
    · rw [if_pos hc]
    · rw [if_neg hc, if_pos ⟨rfl, rfl⟩]
  · rw [hent j i, if_pos ⟨rfl, rfl⟩]

theorem C9_witness :
    ∃ g', manage_edge (Graph.new 3) 0 0 true = some g' ∧
      readEdge g' 0 0 = some true ∧ readEdge g' 0 0 = some true :=
  C9_manage_edge (Graph.new 3) 3 0 0 true (WF_new 3) (by decide) (by decide)

/-! ## Claim C10: out-of-bounds access on small graphs -/

/-- C10 (confirmed): the oracle is total only at `nodes_n = NODES_N`.  For
every well-formed graph with `3 ≤ nodes_n < NODES_N` (any size the safety
check admits but below the compile-time constant), `get_cycle` reaches the
out-of-bounds adjacency access, modelled as `none`: `get_path` iterates
candidates over `0..NODES_N` and compares the path length against
`NODES_N`, not against the graph's own `nodes_n`. -/
theorem C10_oracle_oob (g : Graph) (n : Nat) (hwf : WF g n) (h3 : 3 ≤ n)
    (hn : n < NODES_N) : get_cycle g = none :=
  get_cycle_small_none hwf h3 hn

theorem C10_witness : get_cycle (Graph.new 4) = none :=
  C10_oracle_oob (Graph.new 4) 4 (WF_new 4) (by decide) (by decide)
